import Mathlib

/-!
Verification of the natural-language specification of
`eslint-plugin-expect-type` (`src/rules/expect.ts`) against a shallow
embedding of its core functions in Lean 4.

Source text is modelled as `List Char`; positions are `Nat` indices into
that list (`Int` where the JavaScript code can produce negative values).
External collaborators (the TypeScript checker, the language service, the
snapshot store) are modelled as function parameters, exactly at the
interface the source code consumes.

Loops whose counters are not a structural argument are embedded with an
explicit fuel argument; the fuel is initialized to a bound that the loop
can never exhaust (each iteration strictly increases the loop counter, and
the loop exits once the counter passes the bound), so the embedded
function agrees with the JavaScript loop everywhere it is applied.
-/

set_option maxRecDepth 10000

/-! ## Small helpers shared by the embeddings -/

/-- JavaScript word character, as used by the regex `\b` boundary:
`[A-Za-z0-9_]`. -/
def isWordChar (c : Char) : Bool :=
  (('a' ≤ c && c ≤ 'z') || ('A' ≤ c && c ≤ 'Z') || ('0' ≤ c && c ≤ '9') || c = '_')

/-- `w` occurs in `s` at index `i` with a `\b` boundary on both sides.
Embeds a JavaScript `\b<w>\b` regex test anchored at `i`. -/
def hasWordAt (w s : List Char) (i : Nat) : Bool :=
  w.isPrefixOf (s.drop i)
    && (i = 0 || !isWordChar (s.getD (i - 1) ' '))
    && (s.length ≤ i + w.length || !isWordChar (s.getD (i + w.length) ' '))

/-- Embeds `/\b<w>\b/.test(s)`: the word `w` occurs somewhere in `s`
delimited by word boundaries. -/
def testWord (w s : List Char) : Bool :=
  (List.range (s.length + 1)).any (hasWordAt w s)

/-- Embeds a sticky (`/y`) regex test `/\b<w>/y` with `lastIndex = i`:
the literal `w` must start exactly at `i`, preceded by a word boundary. -/
def stickyWordAt (w s : List Char) (i : Nat) : Bool :=
  (i = 0 || !isWordChar (s.getD (i - 1) ' ')) && w.isPrefixOf (s.drop i)

/-! ## C1: `matchReadonlyArray` (expect.ts lines 456-504) -/

/-- The character-walk loop of `matchReadonlyArray`
(`while (expectedPos < expected.length && actualPos < actual.length)`).
Every arm of the loop body advances `expectedPos` by at least one, so with
`fuel ≥ expected.length - expectedPos + 1` the fuel never runs out before
the loop condition fails; the fuel-exhausted case repeats the loop-exit
test so that it is the exit value whenever it is reachable.
The loop exits with `true` as soon as either string is exhausted. -/
def roLoopAux (expected actual : List Char) :
    Nat → Nat → Nat → Nat → Bool
  | 0, expectedPos, actualPos, _ =>
      !(expectedPos < expected.length && actualPos < actual.length)
  | fuel + 1, expectedPos, actualPos, depth =>
    if expectedPos < expected.length ∧ actualPos < actual.length then
      -- `expectedChar` / `actualChar` of the source are inlined as
      -- `expected.getD expectedPos ' '` / `actual.getD actualPos ' '`.
      if expected.getD expectedPos ' ' = actual.getD actualPos ' ' then
        roLoopAux expected actual fuel (expectedPos + 1) (actualPos + 1) depth
      else if depth > 0 ∧ expected.getD expectedPos ' ' = '>' ∧ actual.getD actualPos ' ' = '['
          ∧ actualPos < actual.length - 1 ∧ actual.getD (actualPos + 1) ' ' = ']' then
        roLoopAux expected actual fuel (expectedPos + 1) (actualPos + 2) (depth - 1)
      else if stickyWordAt "ReadonlyArray<".toList expected expectedPos
          ∧ stickyWordAt "readonly ".toList actual actualPos then
        roLoopAux expected actual fuel (expectedPos + 14) (actualPos + 9) (depth + 1)
      else
        false
    else
      true

/-- Embeds `matchReadonlyArray(actual, expected)` from expect.ts:
guard with `/\breadonly\b/` on the actual text and `/\bReadonlyArray\b/` on
the expected text, then run the simultaneous walk from position 0 at
depth 0. -/
def matchReadonlyArray (actual expected : List Char) : Bool :=
  if !(testWord "readonly".toList actual && testWord "ReadonlyArray".toList expected) then
    false
  else
    roLoopAux expected actual (expected.length + 1) 0 0 0

/-- Stated from the claim's words, not from the source: the same walk, but a
divergence in which one string continues past the point where the other is
exhausted is a hard mismatch — success requires both strings to be consumed
simultaneously. -/
def roLoopBothAux (expected actual : List Char) :
    Nat → Nat → Nat → Nat → Bool
  | 0, expectedPos, actualPos, _ =>
      expectedPos = expected.length && actualPos = actual.length
  | fuel + 1, expectedPos, actualPos, depth =>
    if expectedPos < expected.length ∧ actualPos < actual.length then
      if expected.getD expectedPos ' ' = actual.getD actualPos ' ' then
        roLoopBothAux expected actual fuel (expectedPos + 1) (actualPos + 1) depth
      else if depth > 0 ∧ expected.getD expectedPos ' ' = '>' ∧ actual.getD actualPos ' ' = '['
          ∧ actualPos < actual.length - 1 ∧ actual.getD (actualPos + 1) ' ' = ']' then
        roLoopBothAux expected actual fuel (expectedPos + 1) (actualPos + 2) (depth - 1)
      else if stickyWordAt "ReadonlyArray<".toList expected expectedPos
          ∧ stickyWordAt "readonly ".toList actual actualPos then
        roLoopBothAux expected actual fuel (expectedPos + 14) (actualPos + 9) (depth + 1)
      else
        false
    else
      expectedPos = expected.length && actualPos = actual.length

/-- The claim's reading of the matcher: contains-checks plus the walk in
which exhaustion of only one string is a mismatch. -/
def claimMatchReadonlyArray (actual expected : List Char) : Bool :=
  testWord "readonly".toList actual && testWord "ReadonlyArray".toList expected
    && roLoopBothAux expected actual (expected.length + 1) 0 0 0

example : matchReadonlyArray "readonly number[]".toList "ReadonlyArray<number>".toList = true := by
  decide

example : matchReadonlyArray "number[]".toList "ReadonlyArray<number>".toList = false := by
  decide

example : matchReadonlyArray "readonly number[] junk".toList "ReadonlyArray<number>".toList = true := by
  decide

example :
    claimMatchReadonlyArray "readonly number[] junk".toList "ReadonlyArray<number>".toList
      = false := by
  decide

/-- The character to the left of index `i` in `s` (`none` at the start of
the string); carries the context a sticky `\b` boundary test needs. -/
def prevCharAt (s : List Char) (i : Nat) : Option Char :=
  if i = 0 then none else some (s.getD (i - 1) ' ')

/-- A `\b` boundary holds before the current suffix given the character to
its left. -/
def boundaryOpt : Option Char → Bool
  | none => true
  | some c => !isWordChar c

/-- The walk of `matchReadonlyArray` restated on string suffixes, as the
amended claim describes it: the `ReadOnlyArrayOf<`/qualifier rewriting with
a depth counter, `>` matching `[]` at positive depth, any other divergence a
hard mismatch, and the walk ending in success as soon as either string is
exhausted. `prevE`/`prevA` carry the character left of each suffix for the
word-boundary tests. -/
def roWalkL (prevE prevA : Option Char) :
    List Char → List Char → Nat → Bool
  | [], _, _ => true
  | _, [], _ => true
  | ec :: e', ac :: a', depth =>
    if ec = ac then
      roWalkL (some ec) (some ac) e' a' depth
    else if depth > 0 ∧ ec = '>' ∧ ac = '[' ∧ a'.head? = some ']' then
      roWalkL (some '>') (some ']') e' a'.tail (depth - 1)
    else if boundaryOpt prevE ∧ boundaryOpt prevA
        ∧ "ReadonlyArray<".toList.isPrefixOf (ec :: e')
        ∧ "readonly ".toList.isPrefixOf (ac :: a') then
      roWalkL (some '<') (some ' ') ((ec :: e').drop 14) ((ac :: a').drop 9) (depth + 1)
    else
      false
termination_by e _ _ => e.length
decreasing_by
  all_goals simp [List.length_drop]
  all_goals omega

theorem getD_drop (l : List Char) (n m : Nat) (d : Char) :
    (l.drop n).getD m d = l.getD (n + m) d := by
  simp [List.getD_eq_getElem?_getD, List.getElem?_drop]

theorem getD_of_isPrefixOf_drop {w s : List Char} {i : Nat} (h : w.isPrefixOf (s.drop i))
    {j : Nat} (hj : j < w.length) (d : Char) : s.getD (i + j) d = w.getD j d := by
  obtain ⟨t, ht⟩ := List.isPrefixOf_iff_prefix.mp h
  rw [← getD_drop s i j d, ← ht]
  simp [List.getD_eq_getElem?_getD, List.getElem?_append_left hj]

theorem length_le_of_isPrefixOf_drop {w s : List Char} {i : Nat}
    (h : w.isPrefixOf (s.drop i)) : i + w.length ≤ s.length ∨ s.length ≤ i := by
  have hle := (List.isPrefixOf_iff_prefix.mp h).length_le
  rw [List.length_drop] at hle
  omega

theorem drop_eq_getD_cons {l : List Char} {n : Nat} (h : n < l.length) :
    l.drop n = l.getD n ' ' :: l.drop (n + 1) := by
  rw [List.getD_eq_getElem l ' ' h]
  exact List.drop_eq_getElem_cons h

theorem prevCharAt_succ (l : List Char) (i : Nat) :
    prevCharAt l (i + 1) = some (l.getD i ' ') := by
  simp [prevCharAt]

theorem stickyWordAt_eq_boundary (w s : List Char) (i : Nat) :
    stickyWordAt w s i = (boundaryOpt (prevCharAt s i) && w.isPrefixOf (s.drop i)) := by
  cases i with
  | zero => simp [stickyWordAt, prevCharAt, boundaryOpt]
  | succ j => simp [stickyWordAt, prevCharAt, boundaryOpt]

theorem head?_drop_eq_some {l : List Char} {n : Nat} {c : Char} :
    (l.drop n).head? = some c ↔ (n < l.length ∧ l.getD n ' ' = c) := by
  by_cases h : n < l.length
  · rw [drop_eq_getD_cons h]
    simp [h]
  · rw [List.drop_eq_nil_of_le (by omega)]
    simp
    omega

theorem roWalkL_nil_right (p q : Option Char) (e : List Char) (d : Nat) :
    roWalkL p q e [] d = true := by
  cases e <;> simp [roWalkL]

theorem roWalkL_nil_left (p q : Option Char) (a : List Char) (d : Nat) :
    roWalkL p q [] a d = true := by
  simp [roWalkL]

theorem roWalkL_cons (p q : Option Char) (ec ac : Char) (e' a' : List Char) (d : Nat) :
    roWalkL p q (ec :: e') (ac :: a') d =
      (if ec = ac then
        roWalkL (some ec) (some ac) e' a' d
      else if d > 0 ∧ ec = '>' ∧ ac = '[' ∧ a'.head? = some ']' then
        roWalkL (some '>') (some ']') e' a'.tail (d - 1)
      else if boundaryOpt p ∧ boundaryOpt q
          ∧ "ReadonlyArray<".toList.isPrefixOf (ec :: e')
          ∧ "readonly ".toList.isPrefixOf (ac :: a') then
        roWalkL (some '<') (some ' ') ((ec :: e').drop 14) ((ac :: a').drop 9) (d + 1)
      else
        false) := by
  rw [roWalkL]

/-- The index-based walk of `matchReadonlyArray`, run with enough fuel,
agrees with the suffix-based walk `roWalkL` at every reachable state. -/
theorem roLoopAux_eq_roWalkL (fuel : Nat) :
    ∀ (e a : List Char) (ePos aPos depth : Nat),
      e.length - ePos < fuel → ePos ≤ e.length → aPos ≤ a.length →
      roLoopAux e a fuel ePos aPos depth
        = roWalkL (prevCharAt e ePos) (prevCharAt a aPos)
            (e.drop ePos) (a.drop aPos) depth := by
  induction fuel with
  | zero => intro e a ePos aPos d hf _ _; omega
  | succ fuel ih =>
    intro e a ePos aPos d hf he ha
    by_cases h1 : ePos < e.length ∧ aPos < a.length
    · obtain ⟨h1e, h1a⟩ := h1
      have hde : e.drop ePos = e.getD ePos ' ' :: e.drop (ePos + 1) := drop_eq_getD_cons h1e
      have hda : a.drop aPos = a.getD aPos ' ' :: a.drop (aPos + 1) := drop_eq_getD_cons h1a
      rw [roLoopAux, if_pos ⟨h1e, h1a⟩, hde, hda, roWalkL_cons]
      by_cases hc1 : e.getD ePos ' ' = a.getD aPos ' '
      · rw [if_pos hc1, if_pos hc1, ih e a (ePos + 1) (aPos + 1) d (by omega) (by omega) (by omega),
          prevCharAt_succ, prevCharAt_succ]
      · rw [if_neg hc1, if_neg hc1]
        by_cases hc2 : d > 0 ∧ e.getD ePos ' ' = '>' ∧ a.getD aPos ' ' = '['
            ∧ aPos < a.length - 1 ∧ a.getD (aPos + 1) ' ' = ']'
        · obtain ⟨hd0, hegt, halb, hlen, hrb⟩ := hc2
          have hh : (a.drop (aPos + 1)).head? = some ']' :=
            head?_drop_eq_some.mpr ⟨by omega, hrb⟩
          have hlcond : d > 0 ∧ e.getD ePos ' ' = '>' ∧ a.getD aPos ' ' = '['
              ∧ aPos < a.length - 1 ∧ a.getD (aPos + 1) ' ' = ']' :=
            ⟨hd0, hegt, halb, hlen, hrb⟩
          have hwcond : d > 0 ∧ e.getD ePos ' ' = '>' ∧ a.getD aPos ' ' = '['
              ∧ (a.drop (aPos + 1)).head? = some ']' := ⟨hd0, hegt, halb, hh⟩
          rw [if_pos hlcond, if_pos hwcond]
          rw [ih e a (ePos + 1) (aPos + 2) (d - 1) (by omega) (by omega) (by omega)]
          rw [List.tail_drop]
          have hp1 : prevCharAt e (ePos + 1) = some '>' := by rw [prevCharAt_succ, hegt]
          have hp2 : prevCharAt a (aPos + 2) = some ']' := by
            rw [show aPos + 2 = (aPos + 1) + 1 from rfl, prevCharAt_succ, hrb]
          rw [hp1, hp2]
        · rw [if_neg hc2]
          have hc2' : ¬(d > 0 ∧ e.getD ePos ' ' = '>' ∧ a.getD aPos ' ' = '['
              ∧ (a.drop (aPos + 1)).head? = some ']') := by
            intro ⟨x1, x2, x3, x4⟩
            obtain ⟨y1, y2⟩ := head?_drop_eq_some.mp x4
            exact hc2 ⟨x1, x2, x3, by omega, y2⟩
          rw [if_neg hc2']
          by_cases hc3 : stickyWordAt "ReadonlyArray<".toList e ePos
              ∧ stickyWordAt "readonly ".toList a aPos
          · obtain ⟨hs1, hs2⟩ := hc3
            rw [if_pos ⟨hs1, hs2⟩]
            rw [stickyWordAt_eq_boundary, Bool.and_eq_true] at hs1 hs2
            obtain ⟨hb1, hq1⟩ := hs1
            obtain ⟨hb2, hq2⟩ := hs2
            have hle1 : ePos + 14 ≤ e.length := by
              rcases length_le_of_isPrefixOf_drop hq1 with h | h
              · simpa using h
              · omega
            have hle2 : aPos + 9 ≤ a.length := by
              rcases length_le_of_isPrefixOf_drop hq2 with h | h
              · simpa using h
              · omega
            rw [if_pos ⟨hb1, hb2, hde ▸ hq1, hda ▸ hq2⟩]
            rw [ih e a (ePos + 14) (aPos + 9) (d + 1) (by omega) (by omega) (by omega)]
            have hp1 : prevCharAt e (ePos + 14) = some '<' := by
              have : e.getD (ePos + 13) ' ' = '<' := by
                rw [getD_of_isPrefixOf_drop hq1 (by decide) ' ']
                decide
              simp only [prevCharAt, if_neg (by omega : ¬ ePos + 14 = 0)]
              rw [show ePos + 14 - 1 = ePos + 13 by omega, this]
            have hp2 : prevCharAt a (aPos + 9) = some ' ' := by
              have : a.getD (aPos + 8) ' ' = ' ' := by
                rw [getD_of_isPrefixOf_drop hq2 (by decide) ' ']
                decide
              simp only [prevCharAt, if_neg (by omega : ¬ aPos + 9 = 0)]
              rw [show aPos + 9 - 1 = aPos + 8 by omega, this]
            rw [hp1, hp2, ← hde, ← hda, List.drop_drop, List.drop_drop]
          · rw [if_neg hc3]
            have hc3' : ¬(boundaryOpt (prevCharAt e ePos) ∧ boundaryOpt (prevCharAt a aPos)
                ∧ ("ReadonlyArray<".toList : List Char).isPrefixOf
                    (e.getD ePos ' ' :: e.drop (ePos + 1))
                ∧ ("readonly ".toList : List Char).isPrefixOf
                    (a.getD aPos ' ' :: a.drop (aPos + 1))) := by
              intro ⟨x1, x2, x3, x4⟩
              refine hc3 ⟨?_, ?_⟩
              · rw [stickyWordAt_eq_boundary, Bool.and_eq_true]
                exact ⟨x1, hde ▸ x3⟩
              · rw [stickyWordAt_eq_boundary, Bool.and_eq_true]
                exact ⟨x2, hda ▸ x4⟩
            rw [if_neg hc3']
    · rw [roLoopAux, if_neg h1]
      rcases not_and_or.mp h1 with h | h
      · rw [List.drop_eq_nil_of_le (show e.length ≤ ePos by omega), roWalkL_nil_left]
      · rw [List.drop_eq_nil_of_le (show a.length ≤ aPos by omega), roWalkL_nil_right]

/-- Claim C1, counterexample: the claim declares any character divergence —
including one string continuing past the point where the other string is
exhausted — a hard mismatch, but `matchReadonlyArray` accepts
`actual = "readonly number[] junk"` against
`expected = "ReadonlyArray<number>"`: the walk exhausts the expected text
with `" junk"` of the actual text still unread and returns a match, where
the claim's reading returns a mismatch. -/
theorem c1_counterexample :
    matchReadonlyArray "readonly number[] junk".toList "ReadonlyArray<number>".toList = true
    ∧ claimMatchReadonlyArray "readonly number[] junk".toList "ReadonlyArray<number>".toList
        = false := by
  constructor
  · decide
  · decide

/-- Claim C1 (amended): `matchReadonlyArray` declares a match if and only if
the actual text contains the `readonly` qualifier token, the expected text
contains the `ReadonlyArray` spelling (both as whole words), and the two
strings agree under the simultaneous walk that rewrites `ReadonlyArray<X>`
to `readonly X[]` (nested occurrences tracked via a depth counter, the
closing `>` matching `[]` only at depth > 0), where the walk ends in
success as soon as either string is exhausted; any character divergence
before that point is a hard mismatch. In particular actual
`"readonly number[]"` vs expected `"ReadonlyArray<number>"` matches, and
actual `"number[]"` vs the same expected mismatches. -/
theorem c1_matchReadonlyArray_amended :
    (∀ actual expected : List Char,
      matchReadonlyArray actual expected
        = (testWord "readonly".toList actual && testWord "ReadonlyArray".toList expected
            && roWalkL none none expected actual 0))
    ∧ matchReadonlyArray "readonly number[]".toList "ReadonlyArray<number>".toList = true
    ∧ matchReadonlyArray "number[]".toList "ReadonlyArray<number>".toList = false := by
  refine ⟨?_, by decide, by decide⟩
  intro actual expected
  rw [matchReadonlyArray]
  cases hA : (testWord "readonly".toList actual && testWord "ReadonlyArray".toList expected) with
  | false => simp [hA]
  | true =>
    simp only [hA, Bool.not_true, Bool.false_eq_true, if_false, Bool.true_and]
    rw [roLoopAux_eq_roWalkL (expected.length + 1) expected actual 0 0 0 (by omega) (by omega)
      (by omega)]
    simp [prevCharAt]

/-! ## The comment scanner and line attribution
(expect.ts `parseAssertions` lines 277-294 and 358-366, `isFirstOnLine`
lines 434-441) -/

/-- Positions immediately after each newline of the text, starting the
scan at absolute position `s`; together with the leading `0` these embed
`sourceFile.getLineStarts()` (the sources under test use `\n` line
terminators). -/
def newlinePos : List Char → Nat → List Nat
  | [], _ => []
  | c :: t, s => if c = '\n' then (s + 1) :: newlinePos t (s + 1) else newlinePos t (s + 1)

/-- Embeds `sourceFile.getLineStarts()`. -/
def lineStartsOf (text : List Char) : List Nat :=
  0 :: newlinePos text 0

/-- The 0-based line containing `pos`: the largest `L` with
`lineStarts[L] ≤ pos`. The source keeps a monotone cursor `curLine` and
advances it with `while (lineStarts[curLine + 1] <= pos) curLine++`;
because the line-start table is strictly increasing and the scanner's
positions are increasing, the cursor's value at each query is exactly this
largest index. -/
def lineOf (ls : List Nat) (pos : Nat) : Nat :=
  ls.countP (fun x => x ≤ pos) - 1

/-- Embeds `isFirstOnLine(text, lineStart, pos)`: every character from
`lineStart` (inclusive) to `pos` (exclusive) is exactly `' '`. -/
def isFirstOnLine (text : List Char) (lineStart pos : Nat) : Bool :=
  ((text.drop lineStart).take (pos - lineStart)).all (fun c => c = ' ')

/-- Embeds `getLine(pos)` of `parseAssertions`: a comment that is the
first token on its line applies to the next line, otherwise to its own. -/
def getLine (text : List Char) (ls : List Nat) (pos : Nat) : Nat :=
  if isFirstOnLine text (ls.getD (lineOf ls pos) 0) pos then lineOf ls pos + 1
  else lineOf ls pos

/-- Embeds the comment-scanning loop `while ((commentMatch =
commentRegexp.exec(text)))` with `commentRegexp = /\/\/(.*)/g`, as a
character state machine: outside a comment (`none`) a `//` enters comment
mode and records the match index; inside a comment (`some (i, acc)`)
characters accumulate until the end of the line, because `.` does not
match `\n` and `exec` resumes searching at `lastIndex`, i.e. after the
matched comment body. Only the first `//` of a physical line starts a
match, exactly as with the regex. -/
def scanComments : Nat → Option (Nat × List Char) → List Char → List (Nat × List Char)
  | _, none, [] => []
  | _, some (i, acc), [] => [(i, acc.reverse)]
  | pos, some (i, acc), c :: rest =>
      if c = '\n' then (i, acc.reverse) :: scanComments (pos + 1) none rest
      else scanComments (pos + 1) (some (i, c :: acc)) rest
  | pos, none, '/' :: '/' :: rest => scanComments (pos + 2) (some (pos, [])) rest
  | pos, none, _ :: rest => scanComments (pos + 1) none rest

/-- All `//` comments of the text, in scan order, as
(match index, comment body) pairs. -/
def findComments (text : List Char) : List (Nat × List Char) :=
  scanComments 0 none text

/-- Stated from the claim's words, not from the source: a character is
whitespace in the ordinary (JavaScript `\s`-like) sense, tabs included. -/
def isWsChar (c : Char) : Bool :=
  c = ' ' || c = '\t' || c = '\n' || c = '\r' || c = '\x0b' || c = '\x0c'

/-- Stated from the claim's words, not from the source: the attribution
rule with "first non-whitespace content" read with the full whitespace
class (tabs included). -/
def claimAttributedLine (text : List Char) (ls : List Nat) (pos : Nat) : Nat :=
  if ((text.drop (ls.getD (lineOf ls pos) 0)).take (pos - ls.getD (lineOf ls pos) 0)).all isWsChar
  then lineOf ls pos + 1
  else lineOf ls pos


theorem newlinePos_gt : ∀ (t : List Char) (s : Nat), ∀ x ∈ newlinePos t s, s < x := by
  intro t
  induction t with
  | nil => intro s x hx; simp [newlinePos] at hx
  | cons c t ih =>
    intro s x hx
    rw [newlinePos] at hx
    by_cases hc : c = '\n'
    · rw [if_pos hc] at hx
      rcases List.mem_cons.mp hx with h | h
      · omega
      · have := ih (s + 1) x h; omega
    · rw [if_neg hc] at hx
      have := ih (s + 1) x hx; omega

theorem newlinePos_append_newline : ∀ (l r : List Char) (s : Nat), '\n' ∉ l →
    newlinePos (l ++ '\n' :: r) s = (s + l.length + 1) :: newlinePos r (s + l.length + 1) := by
  intro l
  induction l with
  | nil => intro r s _; simp [newlinePos]
  | cons c l ih =>
    intro r s hnl
    have hc : ¬ c = '\n' := fun h => hnl (h ▸ List.mem_cons_self c l)
    rw [List.cons_append, newlinePos, if_neg hc, ih r (s + 1) (fun h => hnl (List.mem_cons_of_mem c h))]
    congr 2 <;> simp <;> omega

theorem newlinePos_shift : ∀ (t : List Char) (k s : Nat),
    newlinePos t (k + s) = (newlinePos t s).map (fun x => k + x) := by
  intro t
  induction t with
  | nil => intro k s; simp [newlinePos]
  | cons c t ih =>
    intro k s
    by_cases hc : c = '\n'
    · rw [newlinePos, newlinePos, if_pos hc, if_pos hc, List.map_cons,
        show k + s + 1 = k + (s + 1) by omega, ih k (s + 1)]
    · rw [newlinePos, newlinePos, if_neg hc, if_neg hc,
        show k + s + 1 = k + (s + 1) by omega, ih k (s + 1)]

theorem newlinePos_all_gt_of_no_newline : ∀ (t : List Char) (s pos : Nat), s ≤ pos →
    '\n' ∉ t.take (pos - s) → ∀ x ∈ newlinePos t s, pos < x := by
  intro t
  induction t with
  | nil => intro s pos _ _ x hx; simp [newlinePos] at hx
  | cons c t ih =>
    intro s pos hs hnl x hx
    by_cases hsp : s = pos
    · have := newlinePos_gt (c :: t) s x hx; omega
    · have hlt : s < pos := by omega
      have htake : (c :: t).take (pos - s) = c :: t.take (pos - s - 1) := by
        rw [show pos - s = (pos - s - 1) + 1 by omega]; rfl
      rw [htake] at hnl
      have hc : ¬ c = '\n' := fun h => hnl (h ▸ List.mem_cons_self c _)
      rw [newlinePos, if_neg hc] at hx
      refine ih (s + 1) pos (by omega) ?_ x hx
      have : pos - (s + 1) = pos - s - 1 := by omega
      rw [this]
      exact fun h => hnl (List.mem_cons_of_mem c h)

theorem lineOf_cons_zero (L : List Nat) (pos : Nat) :
    lineOf (0 :: L) pos = L.countP (fun x => x ≤ pos) := by
  simp [lineOf, List.countP_cons]

theorem takeWhile_eq_self_of_all {p : Char → Bool} : ∀ {l : List Char},
    (∀ x ∈ l, p x) → l.takeWhile p = l := by
  intro l
  induction l with
  | nil => intro _; rfl
  | cons c t ih =>
    intro h
    rw [List.takeWhile_cons, if_pos (h c (List.mem_cons_self c t))]
    rw [ih (fun x hx => h x (List.mem_cons_of_mem c hx))]

theorem takeWhile_append_stop {p : Char → Bool} {c : Char} (hc : p c = false) :
    ∀ (xs ys : List Char), (xs ++ c :: ys).takeWhile p = xs.takeWhile p := by
  intro xs
  induction xs with
  | nil => intro ys; simp [List.takeWhile_cons, hc]
  | cons x xs ih =>
    intro ys
    rw [List.cons_append, List.takeWhile_cons, List.takeWhile_cons]
    by_cases hx : p x
    · rw [if_pos hx, if_pos hx, ih ys]
    · rw [if_neg hx, if_neg hx]

theorem all_reverse (p : Char → Bool) (l : List Char) : l.reverse.all p = l.all p := by
  cases ha : l.all p
  · have := List.all_eq_true.not.mp (by rw [ha]; simp)
    push_neg at this
    obtain ⟨x, hx, hpx⟩ := this
    cases hb : l.reverse.all p
    · rfl
    · exact absurd (List.all_eq_true.mp hb x (List.mem_reverse.mpr hx)) hpx
  · exact List.all_eq_true.mpr fun x hx =>
      List.all_eq_true.mp ha x (List.mem_reverse.mp hx)

theorem split_first_newline : ∀ {t : List Char}, '\n' ∈ t →
    ∃ l1 r, t = l1 ++ '\n' :: r ∧ '\n' ∉ l1 := by
  intro t
  induction t with
  | nil => intro h; simp at h
  | cons c t ih =>
    intro h
    by_cases hc : c = '\n'
    · exact ⟨[], t, by rw [hc]; rfl, by simp⟩
    · have : '\n' ∈ t := by
        rcases List.mem_cons.mp h with h1 | h1
        · exact absurd h1.symm hc
        · exact h1
      obtain ⟨l1, r, heq, hnl⟩ := ih this
      exact ⟨c :: l1, r, by rw [heq]; rfl, by
        intro hx
        rcases List.mem_cons.mp hx with h1 | h1
        · exact hc h1.symm
        · exact hnl h1⟩

/-- Bounded-length induction form of the attribution characterization:
the attributed line of a position equals the number of newlines before it,
plus one exactly when every character between the last newline and the
position is a space character `' '`. -/
theorem getLine_eq_count_aux : ∀ (n : Nat) (text : List Char), text.length ≤ n →
    ∀ pos : Nat, pos ≤ text.length →
    getLine text (lineStartsOf text) pos =
      (text.take pos).count '\n'
        + (if ((text.take pos).reverse.takeWhile (fun c => !(c = '\n'))).all (fun c => c = ' ')
           then 1 else 0) := by
  intro n
  induction n with
  | zero =>
    intro text hlen pos hpos
    have htext : text = [] := List.eq_nil_of_length_eq_zero (by omega)
    subst htext
    have : pos = 0 := by simpa using hpos
    subst this
    decide
  | succ n ih =>
    intro text hlen pos hpos
    by_cases hnl : '\n' ∈ text.take pos
    · obtain ⟨l1, r, heq, hl1⟩ := split_first_newline (List.mem_of_mem_take hnl)
      subst heq
      have hlsum : (l1 ++ '\n' :: r).length = l1.length + 1 + r.length := by
        simp; omega
      have hl1pos : l1.length < pos := by
        by_contra hcon
        have : (l1 ++ '\n' :: r).take pos = l1.take pos ++ ('\n' :: r).take (pos - l1.length) := by
          rw [List.take_append_eq_append_take]
        rw [this, show pos - l1.length = 0 by omega] at hnl
        simp at hnl
        exact hl1 (List.mem_of_mem_take hnl)
      have hpos' : pos - (l1.length + 1) ≤ r.length := by omega
      have hlen' : r.length ≤ n := by omega
      have htake : (l1 ++ '\n' :: r).take pos = l1 ++ '\n' :: r.take (pos - (l1.length + 1)) := by
        rw [List.take_append_eq_append_take, List.take_of_length_le (by omega),
          show pos - l1.length = (pos - (l1.length + 1)) + 1 by omega, List.take_succ_cons]
      have hcount : ((l1 ++ '\n' :: r).take pos).count '\n'
          = (r.take (pos - (l1.length + 1))).count '\n' + 1 := by
        rw [htake, List.count_append, List.count_cons_self, List.count_eq_zero.mpr hl1]
        omega
      have hcond : ((l1 ++ '\n' :: r).take pos).reverse.takeWhile (fun c => !(c = '\n'))
          = (r.take (pos - (l1.length + 1))).reverse.takeWhile (fun c => !(c = '\n')) := by
        rw [htake, show l1 ++ '\n' :: r.take (pos - (l1.length + 1))
            = l1 ++ ['\n'] ++ r.take (pos - (l1.length + 1)) by simp,
          List.reverse_append, List.reverse_append]
        simp only [List.reverse_cons, List.reverse_nil, List.nil_append, List.cons_append]
        exact takeWhile_append_stop (by decide) _ _
      -- the line-start table of the whole text is the shifted table of `r`
      have hls : lineStartsOf (l1 ++ '\n' :: r)
          = 0 :: (lineStartsOf r).map (fun x => (l1.length + 1) + x) := by
        have hshift : newlinePos r (l1.length + 1)
            = (newlinePos r 0).map (fun x => (l1.length + 1) + x) := by
          have := newlinePos_shift r (l1.length + 1) 0
          simpa using this
        rw [lineStartsOf, newlinePos_append_newline l1 r 0 hl1, lineStartsOf]
        simp only [Nat.zero_add, List.map_cons, Nat.add_zero, hshift]
      have hlineOf : lineOf (lineStartsOf (l1 ++ '\n' :: r)) pos
          = lineOf (lineStartsOf r) (pos - (l1.length + 1)) + 1 := by
        rw [hls, lineOf_cons_zero, List.countP_map]
        have hpred : ((fun x => decide (x ≤ pos)) ∘ fun x => l1.length + 1 + x)
            = fun x => decide (x ≤ pos - (l1.length + 1)) := by
          funext x
          simp only [Function.comp_apply, decide_eq_decide]
          omega
        rw [hpred, lineStartsOf, lineOf_cons_zero, List.countP_cons]
        simp only [decide_eq_true_eq]
        rw [if_pos (by omega : (0 : Nat) ≤ pos - (l1.length + 1))]
      have hbound : lineOf (lineStartsOf r) (pos - (l1.length + 1))
          < (lineStartsOf r).length := by
        rw [lineStartsOf, lineOf_cons_zero]
        have := List.countP_le_length (fun x => decide (x ≤ pos - (l1.length + 1)))
          (l := newlinePos r 0)
        simp only [List.length_cons]
        omega
      have hgetD : (lineStartsOf (l1 ++ '\n' :: r)).getD
            (lineOf (lineStartsOf (l1 ++ '\n' :: r)) pos) 0
          = (l1.length + 1)
            + (lineStartsOf r).getD (lineOf (lineStartsOf r) (pos - (l1.length + 1))) 0 := by
        rw [hlineOf, hls, List.getD_cons_succ]
        rw [List.getD_eq_getElem _ _ (by simpa using hbound), List.getD_eq_getElem _ _ hbound]
        exact List.getElem_map _
      have hfirst : ∀ L' : Nat, isFirstOnLine (l1 ++ '\n' :: r) ((l1.length + 1) + L') pos
          = isFirstOnLine r L' (pos - (l1.length + 1)) := by
        intro L'
        rw [isFirstOnLine, isFirstOnLine]
        have hdrop : (l1 ++ '\n' :: r).drop ((l1.length + 1) + L') = r.drop L' := by
          rw [show l1 ++ '\n' :: r = (l1 ++ ['\n']) ++ r by simp,
            show l1.length + 1 + L' = (l1 ++ ['\n']).length + L' by simp,
            List.drop_append]
        rw [hdrop, show pos - (l1.length + 1 + L') = pos - (l1.length + 1) - L' by omega]
      -- assemble both sides
      have ihr := ih r hlen' (pos - (l1.length + 1)) hpos'
      rw [getLine] at ihr
      rw [getLine, hgetD, hfirst, hlineOf, hcount, hcond]
      split_ifs at ihr ⊢ <;> omega
    · -- no newline before `pos`: everything happens on line 0
      have hcount : (text.take pos).count '\n' = 0 := List.count_eq_zero.mpr hnl
      have hlineOf : lineOf (lineStartsOf text) pos = 0 := by
        rw [lineStartsOf, lineOf_cons_zero, List.countP_eq_zero.mpr]
        intro x hx
        have := newlinePos_all_gt_of_no_newline text 0 pos (by omega)
          (by simpa using hnl) x hx
        simp only [decide_eq_true_eq]
        omega
      have hcond : (text.take pos).reverse.takeWhile (fun c => !(c = '\n'))
          = (text.take pos).reverse := by
        refine takeWhile_eq_self_of_all ?_
        intro x hx
        have : x ∈ text.take pos := List.mem_reverse.mp hx
        simp only [Bool.not_eq_true']
        exact decide_eq_false (fun h => hnl (h ▸ this))
      rw [getLine, hlineOf, hcount, hcond, all_reverse]
      simp only [lineStartsOf, List.getD_cons_zero]
      simp only [isFirstOnLine, List.drop_zero, Nat.sub_zero]
      split_ifs <;> omega

/-- Claim C5, counterexample: in the text `"\t// $ExpectType number\n..."`
the scanner finds the comment at position 1; the comment is the first
non-whitespace content of its physical line (preceded only by a tab), so
the claim attributes it to the following line (line 1), but the code's
`isFirstOnLine` only accepts the character `' '`, so `getLine` attributes
it to its own line (line 0). -/
theorem c5_counterexample :
    (findComments "\t// $ExpectType number\nconst x = 1;\n".toList).map Prod.fst = [1]
    ∧ getLine "\t// $ExpectType number\nconst x = 1;\n".toList
        (lineStartsOf "\t// $ExpectType number\nconst x = 1;\n".toList) 1 = 0
    ∧ claimAttributedLine "\t// $ExpectType number\nconst x = 1;\n".toList
        (lineStartsOf "\t// $ExpectType number\nconst x = 1;\n".toList) 1 = 1 := by
  refine ⟨by decide, by decide, by decide⟩

/-- Claim C5 (amended): for every position in the text, the attributed
line computed by `getLine` equals the 0-based index of the position's own
physical line (the number of newlines before it) plus one exactly when
every character between the last newline and the position is a space
character `' '` — i.e. a comment preceded on its line only by spaces is
attributed to the following line, and any other comment (including one
preceded by a tab) to its own line. -/
theorem c5_attribution_amended : ∀ (text : List Char) (pos : Nat), pos ≤ text.length →
    getLine text (lineStartsOf text) pos =
      (text.take pos).count '\n'
        + (if ((text.take pos).reverse.takeWhile (fun c => !(c = '\n'))).all (fun c => c = ' ')
           then 1 else 0) := by
  intro text pos hpos
  exact getLine_eq_count_aux text.length text le_rfl pos hpos

theorem c5_attribution_amended_witness :
    1 ≤ "\t// $ExpectType number\nconst x = 1;\n".toList.length
    ∧ getLine "\t// $ExpectType number\nconst x = 1;\n".toList
        (lineStartsOf "\t// $ExpectType number\nconst x = 1;\n".toList) 1 = 0 := by
  refine ⟨by decide, ?_⟩
  rw [c5_attribution_amended "\t// $ExpectType number\nconst x = 1;\n".toList 1 (by decide)]
  decide

/-! ## Assertion data model and directive matching
(expect.ts lines 230-268 and the `matchExpect` regex, line 290) -/

/-- Embeds the `TwoSlashAssertion` interface. `position`, `expectedRange`
are `Int` because the source stores the sentinel `-1` in them. The field
`expectedPrefixText` embeds the source's field holding the text before the
caret (used to produce continuation lines). -/
structure TwoSlash where
  position : Int
  expected : List Char
  expectedRange : Int × Int
  expectedPrefixText : List Char
  insertSpace : Bool
deriving Repr, DecidableEq

/-- Embeds the `Assertion` tagged union. A parsed `snapshot` assertion has
`expected = none`; it is populated later from the snapshot store. -/
inductive Assertion where
  | twoslash (t : TwoSlash)
  | manual (expected : List Char)
  | snapshot (snapshotName : List Char) (expected : Option (List Char))
deriving Repr, DecidableEq

/-- Embeds the `SyntaxError` interface's `type` field. -/
inductive SynErrKind where
  | missingSnapshotName
  | missingExpectType
  | invalidTwoslash
deriving Repr, DecidableEq

/-- The three directive keywords of the `matchExpect` regex
`/^ ?\$Expect(TypeSnapshot|Type|Error)( (.*))?$/`. -/
inductive ExpectDirective where
  | typeSnapshot
  | typeDir
  | errorDir
deriving Repr, DecidableEq

/-- Embeds the payload group `( (.*))?$`: absent (`none`) at the end of
the comment, or a space followed by the (possibly empty) rest. -/
def parsePayload : List Char → Option (Option (List Char))
  | [] => some none
  | ' ' :: p => some (some p)
  | _ => none

/-- Embeds `/^ ?\$Expect(TypeSnapshot|Type|Error)( (.*))?$/.exec(comment)`:
strip at most one leading space, require the literal `$Expect`, try the
alternatives in the regex's order, then parse the payload group. (When the
`TypeSnapshot` branch fails on the payload, the regex backtracking would
try `Type`, whose payload would have to start with `"Snapshot"` and
therefore cannot begin with the mandatory space — so committing to the
first matching keyword is equivalent.) -/
def matchExpect (comment : List Char) : Option (ExpectDirective × Option (List Char)) :=
  let c := match comment with
    | ' ' :: r => r
    | r => r
  if "$ExpectTypeSnapshot".toList.isPrefixOf c then
    (parsePayload (c.drop 19)).map (fun p => (ExpectDirective.typeSnapshot, p))
  else if "$ExpectType".toList.isPrefixOf c then
    (parsePayload (c.drop 11)).map (fun p => (ExpectDirective.typeDir, p))
  else if "$ExpectError".toList.isPrefixOf c then
    (parsePayload (c.drop 12)).map (fun p => (ExpectDirective.errorDir, p))
  else
    none

/-- JavaScript truthiness of the optional payload string: `undefined` and
`""` are falsy. -/
def truthyPayload : Option (List Char) → Bool
  | none => false
  | some p => !(p = [])

/-! ## `parseTwoslashAssertion` (expect.ts lines 369-432) -/

/-- The continuation-lookahead loop
`for (let nextLine = commentLine; nextLine < lineStarts.length; nextLine++)`.
The fuel is exactly `lineStarts.length - nextLine`, so fuel exhaustion
coincides with the loop condition failing. Returns the extended expected
text, the extended range end, and (as instrumentation, unused by the
embedding of the caller) the number of continuation lines consumed. -/
def twoslashLookahead (text : List Char) (lineStarts : List Nat) (commentLine : Nat)
    (pfx : List Char) :
    Nat → Nat → List Char → Int → (List Char × Int × Nat)
  | 0, _, expected, rangeEnd => (expected, rangeEnd, 0)
  | fuel + 1, nextLine, expected, rangeEnd =>
    let thisLineEnd : Nat :=
      if nextLine + 1 < lineStarts.length then lineStarts.getD (nextLine + 1) 0 - 1
      else text.length
    let lineText :=
      (text.drop (lineStarts.getD nextLine 0)).take (thisLineEnd + 1 - lineStarts.getD nextLine 0)
    if pfx.isPrefixOf lineText then
      let expected1 := (if nextLine = commentLine then expected ++ ['\n'] else expected)
        ++ lineText.drop pfx.length
      let r := twoslashLookahead text lineStarts commentLine pfx fuel (nextLine + 1)
        expected1 (thisLineEnd : Int)
      (r.1, r.2.1, r.2.2 + 1)
    else
      (expected, rangeEnd, 0)

/-- Embeds `parseTwoslashAssertion(comment, commentIndex, commentLine,
sourceText, lineStarts)`. Returns `none` when the comment is not a caret
comment, a `SynErrKind × Int` (error kind and line) for invalid caret
spacing, or the built `TwoSlash` assertion.

One deviation from JavaScript: when `commentLine = 0` (a caret comment on
the first physical line that is not first on its line), the source indexes
`lineStarts[-1]` and `lineStarts[-2]`, which are `undefined` and make
`position` `NaN`; the embedding uses `getD ... 0` there instead. No claim
depends on that path. -/
def parseTwoslashAssertion (comment : List Char) (commentIndex : Nat) (commentLine : Nat)
    (text : List Char) (lineStarts : List Nat) : Option (Sum (SynErrKind × Int) TwoSlash) :=
  let ws := comment.takeWhile (fun c => c = ' ')
  let rest := comment.dropWhile (fun c => c = ' ')
  match rest with
  | '^' :: '?' :: rawPayload =>
    if rawPayload.length ≠ 0 ∧ rawPayload.getD 0 ' ' ≠ ' ' then
      some (Sum.inl (SynErrKind.invalidTwoslash, (commentLine : Int) - 1))
    else
      let expected := rawPayload.drop 1
      if commentLine = 1 then
        some (Sum.inr ⟨-1, expected, (-1, -1), [], false⟩)
      else
        let caretIndex := commentIndex + ws.length + 2
        let position : Int := (caretIndex : Int)
          - ((lineStarts.getD (commentLine - 1) 0 : Int) - (lineStarts.getD (commentLine - 2) 0 : Int))
        let rangeStart : Int := (commentIndex + ws.length + 5 : Nat)
        let rangeEnd0 : Int :=
          if commentLine < lineStarts.length then (lineStarts.getD commentLine 0 : Int) - 1
          else (text.length : Int)
        let pfx := (text.drop (lineStarts.getD (commentLine - 1) 0)).take
            (commentIndex + 2 + ws.length - lineStarts.getD (commentLine - 1) 0)
          ++ "   ".toList
        let look := twoslashLookahead text lineStarts commentLine pfx
          (lineStarts.length - commentLine) commentLine expected rangeEnd0
        if rangeStart > look.2.1 then
          some (Sum.inr ⟨position, look.1, (look.2.1, look.2.1), pfx, true⟩)
        else
          some (Sum.inr ⟨position, look.1, (rangeStart, look.2.1), pfx, false⟩)
  | _ => none

/-! ## `parseAssertions` (expect.ts lines 270-367) -/

/-- First value stored under `key` in the association list (JavaScript
`Map.get`). -/
def mapGet (m : List (Nat × Assertion)) (key : Nat) : Option Assertion :=
  (m.find? (fun kv => kv.1 = key)).map Prod.snd

/-- JavaScript `Map.delete(key)`: whether the key was present, and the
map with its entry removed. -/
def mapDelete : List (Nat × Assertion) → Nat → Bool × List (Nat × Assertion)
  | [], _ => (false, [])
  | kv :: rest, key =>
    if kv.1 = key then (true, rest)
    else
      let r := mapDelete rest key
      (r.1, kv :: r.2)

/-- The output collections of `parseAssertions` (the `Assertions`
interface). `errorLines` is kept as an insertion-ordered list with unique
members (a JavaScript `Set`); `typeAssertions` as an insertion-ordered
association list with unique keys (a JavaScript `Map`). -/
structure ParsedAssertions where
  errorLines : List Nat
  typeAssertions : List (Nat × Assertion)
  duplicates : List Nat
  twoSlashAssertions : List TwoSlash
  syntaxErrors : List (SynErrKind × Int)
deriving Repr, DecidableEq

/-- One iteration of the `while ((commentMatch = commentRegexp.exec(text)))`
body of `parseAssertions`, for the comment at `commentIndex` with the given
body. -/
def processComment (text : List Char) (ls : List Nat) (st : ParsedAssertions)
    (pc : Nat × List Char) : ParsedAssertions :=
  let commentIndex := pc.1
  let comment := pc.2
  let line := getLine text ls commentIndex
  match matchExpect comment with
  | some (ExpectDirective.typeSnapshot, payload) =>
    if truthyPayload payload then
      let d := mapDelete st.typeAssertions line
      if d.1 then
        { st with typeAssertions := d.2, duplicates := st.duplicates ++ [line] }
      else
        { st with typeAssertions :=
            st.typeAssertions ++ [(line, Assertion.snapshot (payload.getD []) none)] }
    else
      { st with syntaxErrors := st.syntaxErrors ++ [(SynErrKind.missingSnapshotName, (line : Int))] }
  | some (ExpectDirective.errorDir, _) =>
    if line ∈ st.errorLines then
      { st with duplicates := st.duplicates ++ [line] }
    else
      { st with errorLines := st.errorLines ++ [line] }
  | some (ExpectDirective.typeDir, payload) =>
    if truthyPayload payload then
      let d := mapDelete st.typeAssertions line
      if d.1 then
        { st with typeAssertions := d.2, duplicates := st.duplicates ++ [line] }
      else
        { st with typeAssertions :=
            st.typeAssertions ++ [(line, Assertion.manual (payload.getD []))] }
    else
      { st with syntaxErrors := st.syntaxErrors ++ [(SynErrKind.missingExpectType, (line : Int))] }
  | none =>
    match parseTwoslashAssertion comment commentIndex line text ls with
    | some (Sum.inl e) => { st with syntaxErrors := st.syntaxErrors ++ [e] }
    | some (Sum.inr a) => { st with twoSlashAssertions := st.twoSlashAssertions ++ [a] }
    | none => st

/-- Embeds `parseAssertions(sourceFile)`: scan the comments and fold the
per-comment processing over them in order. -/
def parseAssertions (text : List Char) : ParsedAssertions :=
  (findComments text).foldl (processComment text (lineStartsOf text))
    ⟨[], [], [], [], []⟩

example :
    (parseAssertions "// $ExpectError\nlet x: string = 1; // $ExpectError\n".toList).errorLines
      = [1] := by
  decide

example :
    (parseAssertions "// $ExpectError\nlet x: string = 1; // $ExpectError\n".toList).duplicates
      = [1] := by
  decide

example :
    (parseAssertions "// $ExpectType number\nconst x = 1; // $ExpectType string\n".toList).typeAssertions
      = [] := by
  decide

example :
    (parseAssertions "// $ExpectType number\nconst x = 1; // $ExpectType string\n".toList).duplicates
      = [1] := by
  decide

example :
    (parseAssertions "// $ExpectError\nconst x = 1; // $ExpectType string\n".toList)
      = ⟨[1], [(1, Assertion.manual "string".toList)], [], [], []⟩ := by
  decide

/-! ## Per-line analysis of `parseAssertions`

The three per-line observables of the parse state (`line ∈ errorLines`,
the type-assertion map entry, the number of times the line was pushed to
`duplicates`) evolve only with the directives attributed to that line;
the lemmas below make that precise and let concrete directive sequences
be folded line-locally. -/

/-- The keys of the type-assertion map are unique (a JavaScript `Map`
invariant, preserved by the fold). -/
def keysNodup (m : List (Nat × Assertion)) : Prop :=
  (m.map Prod.fst).Nodup

theorem mapGet_cons (kv : Nat × Assertion) (rest : List (Nat × Assertion)) (k : Nat) :
    mapGet (kv :: rest) k = if kv.1 = k then some kv.2 else mapGet rest k := by
  by_cases hk : kv.1 = k
  · simp [mapGet, List.find?_cons, hk]
  · simp [mapGet, List.find?_cons, hk]

theorem mapGet_eq_none_iff (m : List (Nat × Assertion)) (k : Nat) :
    mapGet m k = none ↔ k ∉ m.map Prod.fst := by
  induction m with
  | nil => simp [mapGet]
  | cons kv rest ih =>
    rw [mapGet_cons]
    by_cases hk : kv.1 = k
    · simp [hk]
    · simp only [if_neg hk, List.map_cons, List.mem_cons, ih]
      constructor
      · intro h hmem
        rcases hmem with h1 | h1
        · exact hk h1.symm
        · exact h h1
      · intro h hmem
        exact h (Or.inr hmem)

theorem mapDelete_fst (m : List (Nat × Assertion)) (k : Nat) :
    (mapDelete m k).1 = (mapGet m k).isSome := by
  induction m with
  | nil => simp [mapDelete, mapGet]
  | cons kv rest ih =>
    rw [mapGet_cons]
    by_cases hk : kv.1 = k
    · simp [mapDelete, hk]
    · simp only [mapDelete, if_neg hk]
      exact ih

theorem mapDelete_get_self (m : List (Nat × Assertion)) (k : Nat) (h : keysNodup m) :
    mapGet (mapDelete m k).2 k = none := by
  induction m with
  | nil => simp [mapDelete, mapGet]
  | cons kv rest ih =>
    have hnd : keysNodup rest := (List.nodup_cons.mp h).2
    by_cases hk : kv.1 = k
    · simp only [mapDelete, if_pos hk]
      rw [mapGet_eq_none_iff]
      intro hmem
      exact (List.nodup_cons.mp h).1 (hk ▸ hmem)
    · simp only [mapDelete, if_neg hk]
      rw [mapGet_cons, if_neg hk]
      exact ih hnd

theorem mapDelete_get_other (m : List (Nat × Assertion)) (k j : Nat) (hjk : j ≠ k) :
    mapGet (mapDelete m k).2 j = mapGet m j := by
  induction m with
  | nil => simp [mapDelete]
  | cons kv rest ih =>
    by_cases hk : kv.1 = k
    · simp only [mapDelete, if_pos hk]
      rw [mapGet_cons, if_neg (fun h => hjk (by omega))]
    · simp only [mapDelete, if_neg hk]
      rw [mapGet_cons, mapGet_cons]
      by_cases hj : kv.1 = j
      · rw [if_pos hj, if_pos hj]
      · rw [if_neg hj, if_neg hj]
        exact ih

theorem mapGet_append_single (m : List (Nat × Assertion)) (k : Nat) (a : Assertion) (j : Nat) :
    mapGet (m ++ [(k, a)]) j
      = match mapGet m j with
        | some x => some x
        | none => if k = j then some a else none := by
  induction m with
  | nil =>
    rw [List.nil_append, mapGet_cons]
    by_cases hk : k = j
    · simp [hk, mapGet]
    · simp [hk, mapGet]
  | cons kv rest ih =>
    rw [List.cons_append, mapGet_cons, mapGet_cons]
    by_cases hj : kv.1 = j
    · rw [if_pos hj, if_pos hj]
    · rw [if_neg hj, if_neg hj]
      exact ih

theorem mapDelete_keys_sublist (m : List (Nat × Assertion)) (k : Nat) :
    ((mapDelete m k).2.map Prod.fst).Sublist (m.map Prod.fst) := by
  induction m with
  | nil => simp [mapDelete]
  | cons kv rest ih =>
    by_cases hk : kv.1 = k
    · simp only [mapDelete, if_pos hk, List.map_cons]
      exact List.sublist_cons_of_sublist _ (List.Sublist.refl _)
    · simp only [mapDelete, if_neg hk, List.map_cons]
      exact List.Sublist.cons₂ _ ih

theorem keysNodup_delete (m : List (Nat × Assertion)) (k : Nat) (h : keysNodup m) :
    keysNodup (mapDelete m k).2 :=
  List.Nodup.sublist (mapDelete_keys_sublist m k) h

theorem keysNodup_append_single (m : List (Nat × Assertion)) (k : Nat) (a : Assertion)
    (h : keysNodup m) (habs : mapGet m k = none) :
    keysNodup (m ++ [(k, a)]) := by
  rw [keysNodup, List.map_append]
  simp only [List.map_cons, List.map_nil]
  rw [List.nodup_append]
  refine ⟨h, List.nodup_singleton k, ?_⟩
  intro x hx hy
  simp only [List.mem_singleton] at hy
  exact (mapGet_eq_none_iff m k).mp habs (hy ▸ hx)

/-- The per-line observables of the parse state: whether the line is in
the error-line set, its type-assertion map entry, and how many times it
was pushed to `duplicates`. -/
structure LineState where
  hasError : Bool
  entry : Option Assertion
  dupCount : Nat
deriving Repr, DecidableEq

/-- How one directive attributed to a line transforms that line's
observables (read off the three directive branches of `parseAssertions`). -/
def lineStep (st : LineState) (ev : ExpectDirective × Option (List Char)) : LineState :=
  match ev.1 with
  | ExpectDirective.typeSnapshot =>
    if truthyPayload ev.2 then
      if st.entry.isSome then ⟨st.hasError, none, st.dupCount + 1⟩
      else ⟨st.hasError, some (Assertion.snapshot (ev.2.getD []) none), st.dupCount⟩
    else st
  | ExpectDirective.typeDir =>
    if truthyPayload ev.2 then
      if st.entry.isSome then ⟨st.hasError, none, st.dupCount + 1⟩
      else ⟨st.hasError, some (Assertion.manual (ev.2.getD [])), st.dupCount⟩
    else st
  | ExpectDirective.errorDir =>
    if st.hasError then ⟨true, st.entry, st.dupCount + 1⟩ else ⟨true, st.entry, st.dupCount⟩

/-- Project the parse state onto one line's observables. -/
def lineView (st : ParsedAssertions) (ℓ : Nat) : LineState :=
  ⟨decide (ℓ ∈ st.errorLines), mapGet st.typeAssertions ℓ, st.duplicates.count ℓ⟩

/-- The directives (with payloads) attributed to line `ℓ`, in scan order. -/
def dirEventsAt (text : List Char) (ℓ : Nat) : List (ExpectDirective × Option (List Char)) :=
  (findComments text).filterMap (fun pc =>
    if getLine text (lineStartsOf text) pc.1 = ℓ then matchExpect pc.2 else none)

theorem processComment_keysNodup (text : List Char) (ls : List Nat) (st : ParsedAssertions)
    (pc : Nat × List Char) (hnd : keysNodup st.typeAssertions) :
    keysNodup (processComment text ls st pc).typeAssertions := by
  rw [processComment]
  rcases hme : matchExpect pc.2 with _ | ⟨dir, payload⟩
  · dsimp only
    rcases parseTwoslashAssertion pc.2 pc.1 (getLine text ls pc.1) text ls with _ | e
    · exact hnd
    · rcases e with e | a
      · exact hnd
      · exact hnd
  · rcases dir with _ | _ | _ <;> dsimp only
    · by_cases ht : truthyPayload payload
      · rw [if_pos ht]
        by_cases hd : (mapDelete st.typeAssertions (getLine text ls pc.1)).1
        · rw [if_pos hd]
          exact keysNodup_delete _ _ hnd
        · rw [if_neg hd]
          refine keysNodup_append_single _ _ _ hnd ?_
          rw [mapDelete_fst] at hd
          cases hget : mapGet st.typeAssertions (getLine text ls pc.1)
          · rfl
          · rw [hget] at hd
            simp at hd
      · rw [if_neg ht]
        exact hnd
    · by_cases ht : truthyPayload payload
      · rw [if_pos ht]
        by_cases hd : (mapDelete st.typeAssertions (getLine text ls pc.1)).1
        · rw [if_pos hd]
          exact keysNodup_delete _ _ hnd
        · rw [if_neg hd]
          refine keysNodup_append_single _ _ _ hnd ?_
          rw [mapDelete_fst] at hd
          cases hget : mapGet st.typeAssertions (getLine text ls pc.1)
          · rfl
          · rw [hget] at hd
            simp at hd
      · rw [if_neg ht]
        exact hnd
    · by_cases he : getLine text ls pc.1 ∈ st.errorLines
      · rw [if_pos he]
        exact hnd
      · rw [if_neg he]
        exact hnd

theorem count_append_singleton_self (d : List Nat) (ℓ : Nat) :
    (d ++ [ℓ]).count ℓ = d.count ℓ + 1 := by
  rw [List.count_append]
  simp

theorem count_append_singleton_other (d : List Nat) (ℓ j : Nat) (h : ¬ j = ℓ) :
    (d ++ [j]).count ℓ = d.count ℓ := by
  rw [List.count_append]
  simp [List.count_singleton', h]

/-- One comment-processing step, seen through one line's observables: a
directive attributed to `ℓ` acts as `lineStep`; every other comment leaves
the observables of `ℓ` unchanged. -/
theorem processComment_lineView (text : List Char) (ls : List Nat) (st : ParsedAssertions)
    (pc : Nat × List Char) (ℓ : Nat) (hnd : keysNodup st.typeAssertions) :
    lineView (processComment text ls st pc) ℓ
      = match (if getLine text ls pc.1 = ℓ then matchExpect pc.2 else none) with
        | some ev => lineStep (lineView st ℓ) ev
        | none => lineView st ℓ := by
  rw [processComment]
  rcases hme : matchExpect pc.2 with _ | ⟨dir, payload⟩
  · dsimp only
    have hnone : (if getLine text ls pc.1 = ℓ
        then (none : Option (ExpectDirective × Option (List Char))) else none) = none := by
      split <;> rfl
    rw [hnone]
    rcases parseTwoslashAssertion pc.2 pc.1 (getLine text ls pc.1) text ls with _ | e
    · rfl
    · rcases e with e | a
      · rfl
      · rfl
  · by_cases hline : getLine text ls pc.1 = ℓ
    · rw [if_pos hline, hline]
      rcases dir with _ | _ | _ <;> dsimp only [lineStep]
      · by_cases ht : truthyPayload payload
        · rw [if_pos ht, if_pos ht]
          by_cases hd : (mapDelete st.typeAssertions ℓ).1
          · rw [if_pos hd]
            have hsome : (lineView st ℓ).entry.isSome = true := by
              rw [show (lineView st ℓ).entry = mapGet st.typeAssertions ℓ from rfl,
                ← mapDelete_fst]
              exact hd
            rw [if_pos hsome]
            simp only [lineView]
            dsimp only
            simp [LineState.mk.injEq, mapDelete_get_self _ _ hnd, count_append_singleton_self]
          · rw [if_neg hd]
            have hnone : mapGet st.typeAssertions ℓ = none := by
              rw [mapDelete_fst] at hd
              cases hget : mapGet st.typeAssertions ℓ
              · rfl
              · rw [hget] at hd
                simp at hd
            have hsome : ¬ (lineView st ℓ).entry.isSome = true := by
              rw [show (lineView st ℓ).entry = mapGet st.typeAssertions ℓ from rfl, hnone]
              simp
            rw [if_neg hsome]
            simp only [lineView]
            dsimp only
            simp [LineState.mk.injEq, mapGet_append_single, hnone]
        · rw [if_neg ht, if_neg ht]
          rfl
      · by_cases ht : truthyPayload payload
        · rw [if_pos ht, if_pos ht]
          by_cases hd : (mapDelete st.typeAssertions ℓ).1
          · rw [if_pos hd]
            have hsome : (lineView st ℓ).entry.isSome = true := by
              rw [show (lineView st ℓ).entry = mapGet st.typeAssertions ℓ from rfl,
                ← mapDelete_fst]
              exact hd
            rw [if_pos hsome]
            simp only [lineView]
            dsimp only
            simp [LineState.mk.injEq, mapDelete_get_self _ _ hnd, count_append_singleton_self]
          · rw [if_neg hd]
            have hnone : mapGet st.typeAssertions ℓ = none := by
              rw [mapDelete_fst] at hd
              cases hget : mapGet st.typeAssertions ℓ
              · rfl
              · rw [hget] at hd
                simp at hd
            have hsome : ¬ (lineView st ℓ).entry.isSome = true := by
              rw [show (lineView st ℓ).entry = mapGet st.typeAssertions ℓ from rfl, hnone]
              simp
            rw [if_neg hsome]
            simp only [lineView]
            dsimp only
            simp [LineState.mk.injEq, mapGet_append_single, hnone]
        · rw [if_neg ht, if_neg ht]
          rfl
      · by_cases he : ℓ ∈ st.errorLines
        · rw [if_pos he]
          have hhe : (lineView st ℓ).hasError = true := by
            rw [show (lineView st ℓ).hasError = decide (ℓ ∈ st.errorLines) from rfl]
            simpa using he
          rw [if_pos hhe]
          simp only [lineView]
          dsimp only
          simp [LineState.mk.injEq, he, count_append_singleton_self]
        · rw [if_neg he]
          have hhe : ¬ (lineView st ℓ).hasError = true := by
            rw [show (lineView st ℓ).hasError = decide (ℓ ∈ st.errorLines) from rfl]
            simpa using he
          rw [if_neg hhe]
          simp only [lineView]
          dsimp only
          simp [LineState.mk.injEq, List.mem_append]
    · rw [if_neg hline]
      have hne : ¬ ℓ = getLine text ls pc.1 := fun h => hline h.symm
      rcases dir with _ | _ | _ <;> dsimp only
      · by_cases ht : truthyPayload payload
        · rw [if_pos ht]
          by_cases hd : (mapDelete st.typeAssertions (getLine text ls pc.1)).1
          · rw [if_pos hd]
            simp only [lineView]
            dsimp only
            simp [LineState.mk.injEq, mapDelete_get_other _ _ _ hne,
              count_append_singleton_other _ _ _ hline]
          · rw [if_neg hd]
            simp only [lineView]
            dsimp only
            simp only [LineState.mk.injEq, mapGet_append_single]
            cases hget : mapGet st.typeAssertions ℓ <;> simp [hline, hget]
        · rw [if_neg ht]
          rfl
      · by_cases ht : truthyPayload payload
        · rw [if_pos ht]
          by_cases hd : (mapDelete st.typeAssertions (getLine text ls pc.1)).1
          · rw [if_pos hd]
            simp only [lineView]
            dsimp only
            simp [LineState.mk.injEq, mapDelete_get_other _ _ _ hne,
              count_append_singleton_other _ _ _ hline]
          · rw [if_neg hd]
            simp only [lineView]
            dsimp only
            simp only [LineState.mk.injEq, mapGet_append_single]
            cases hget : mapGet st.typeAssertions ℓ <;> simp [hline, hget]
        · rw [if_neg ht]
          rfl
      · by_cases he : getLine text ls pc.1 ∈ st.errorLines
        · rw [if_pos he]
          simp only [lineView]
          dsimp only
          simp [LineState.mk.injEq, count_append_singleton_other _ _ _ hline]
        · rw [if_neg he]
          simp only [lineView]
          dsimp only
          simp [LineState.mk.injEq, List.mem_append, hne]

theorem foldl_keysNodup (text : List Char) (ls : List Nat) :
    ∀ (comments : List (Nat × List Char)) (st : ParsedAssertions),
    keysNodup st.typeAssertions →
    keysNodup ((comments.foldl (processComment text ls) st).typeAssertions) := by
  intro comments
  induction comments with
  | nil => intro st h; exact h
  | cons pc rest ih =>
    intro st h
    exact ih _ (processComment_keysNodup text ls st pc h)

/-- The fold of `parseAssertions` over all comments, seen through one
line's observables, is the fold of `lineStep` over just the directives
attributed to that line. -/
theorem foldl_lineView (text : List Char) (ls : List Nat) :
    ∀ (comments : List (Nat × List Char)) (st : ParsedAssertions) (ℓ : Nat),
    keysNodup st.typeAssertions →
    lineView (comments.foldl (processComment text ls) st) ℓ
      = (comments.filterMap (fun pc =>
            if getLine text ls pc.1 = ℓ then matchExpect pc.2 else none)).foldl
          lineStep (lineView st ℓ) := by
  intro comments
  induction comments with
  | nil => intro st ℓ _; rfl
  | cons pc rest ih =>
    intro st ℓ hnd
    rw [List.foldl_cons, List.filterMap_cons]
    rw [ih _ ℓ (processComment_keysNodup text ls st pc hnd)]
    rw [processComment_lineView text ls st pc ℓ hnd]
    cases hev : (if getLine text ls pc.1 = ℓ then matchExpect pc.2 else none) with
    | none => rfl
    | some ev => rw [List.foldl_cons]

/-- The per-line observables of a full parse are the `lineStep`-fold of
the line's directives from the empty line state. -/
theorem parseAssertions_lineView (text : List Char) (ℓ : Nat) :
    lineView (parseAssertions text) ℓ
      = (dirEventsAt text ℓ).foldl lineStep ⟨false, none, 0⟩ := by
  rw [parseAssertions, dirEventsAt,
    foldl_lineView text (lineStartsOf text) (findComments text) ⟨[], [], [], [], []⟩ ℓ
      (by simp [keysNodup])]
  congr 1

/-- The assertion a type-family directive stores when it is the first on
its line (`none` for `$ExpectError` and for falsy payloads). -/
def typeFamilyAssertion : (ExpectDirective × Option (List Char)) → Option Assertion
  | (ExpectDirective.typeSnapshot, payload) =>
    if truthyPayload payload then some (Assertion.snapshot (payload.getD []) none) else none
  | (ExpectDirective.typeDir, payload) =>
    if truthyPayload payload then some (Assertion.manual (payload.getD [])) else none
  | (ExpectDirective.errorDir, _) => none

theorem lineStep_typeFamily (h : Bool) (d : Nat) (ev : ExpectDirective × Option (List Char))
    (a : Assertion) (hta : typeFamilyAssertion ev = some a) :
    lineStep ⟨h, none, d⟩ ev = ⟨h, some a, d⟩ := by
  rcases ev with ⟨dir, payload⟩
  rcases dir with _ | _ | _ <;> simp only [typeFamilyAssertion] at hta
  · by_cases ht : truthyPayload payload
    · rw [if_pos ht] at hta
      simp only [lineStep, if_pos ht]
      simp at hta ⊢
      exact hta
    · rw [if_neg ht] at hta
      exact absurd hta (by simp)
  · by_cases ht : truthyPayload payload
    · rw [if_pos ht] at hta
      simp only [lineStep, if_pos ht]
      simp at hta ⊢
      exact hta
    · rw [if_neg ht] at hta
      exact absurd hta (by simp)
  · exact absurd hta (by simp)

theorem lineStep_error (h : Bool) (e : Option Assertion) (d : Nat)
    (ev : ExpectDirective × Option (List Char)) (he : ev.1 = ExpectDirective.errorDir) :
    lineStep ⟨h, e, d⟩ ev = if h then ⟨true, e, d + 1⟩ else ⟨true, e, d⟩ := by
  rcases ev with ⟨dir, payload⟩
  cases he
  cases h <;> simp [lineStep]

theorem lineStep_typeFamily_collide (h : Bool) (b : Assertion) (d : Nat)
    (ev : ExpectDirective × Option (List Char)) (a : Assertion)
    (hta : typeFamilyAssertion ev = some a) :
    lineStep ⟨h, some b, d⟩ ev = ⟨h, none, d + 1⟩ := by
  rcases ev with ⟨dir, payload⟩
  rcases dir with _ | _ | _ <;> simp only [typeFamilyAssertion] at hta
  · by_cases ht : truthyPayload payload
    · simp [lineStep, ht]
    · rw [if_neg ht] at hta
      exact absurd hta (by simp)
  · by_cases ht : truthyPayload payload
    · simp [lineStep, ht]
    · rw [if_neg ht] at hta
      exact absurd hta (by simp)
  · exact absurd hta (by simp)

/-- Claim C9: an `$ExpectError` directive and an `$ExpectType` /
`$ExpectTypeSnapshot` directive attributed to the same line (in either
order) never count as duplicates of each other and do not cancel each
other: the line stays in the error-line set, keeps its type assertion, and
is not pushed to `duplicates`. -/
theorem c9_error_and_type_do_not_collide :
    ∀ (text : List Char) (ℓ : Nat)
      (e₁ e₂ : ExpectDirective × Option (List Char)) (a : Assertion),
      dirEventsAt text ℓ = [e₁, e₂] →
      ((e₁.1 = ExpectDirective.errorDir ∧ typeFamilyAssertion e₂ = some a) ∨
       (e₂.1 = ExpectDirective.errorDir ∧ typeFamilyAssertion e₁ = some a)) →
      ℓ ∈ (parseAssertions text).errorLines
      ∧ mapGet (parseAssertions text).typeAssertions ℓ = some a
      ∧ (parseAssertions text).duplicates.count ℓ = 0 := by
  intro text ℓ e₁ e₂ a hev hcase
  have hv := parseAssertions_lineView text ℓ
  rw [hev] at hv
  have hL : lineView (parseAssertions text) ℓ = ⟨true, some a, 0⟩ := by
    rw [hv, List.foldl_cons, List.foldl_cons, List.foldl_nil]
    rcases hcase with ⟨h1, h2⟩ | ⟨h1, h2⟩
    · rw [lineStep_error false none 0 e₁ h1]
      simp only [Bool.false_eq_true, if_false]
      exact lineStep_typeFamily true 0 e₂ a h2
    · rw [lineStep_typeFamily false 0 e₁ a h2]
      rw [lineStep_error false (some a) 0 e₂ h1]
      simp
  refine ⟨?_, ?_, ?_⟩
  · exact of_decide_eq_true (congrArg LineState.hasError hL)
  · exact congrArg LineState.entry hL
  · exact congrArg LineState.dupCount hL

theorem c9_error_and_type_do_not_collide_witness :
    dirEventsAt "// $ExpectError\nconst x = 1; // $ExpectType number\n".toList 1
        = [(ExpectDirective.errorDir, none), (ExpectDirective.typeDir, some "number".toList)]
    ∧ (1 ∈ (parseAssertions "// $ExpectError\nconst x = 1; // $ExpectType number\n".toList).errorLines
      ∧ mapGet (parseAssertions "// $ExpectError\nconst x = 1; // $ExpectType number\n".toList).typeAssertions 1
          = some (Assertion.manual "number".toList)
      ∧ (parseAssertions "// $ExpectError\nconst x = 1; // $ExpectType number\n".toList).duplicates.count 1
          = 0) := by
  refine ⟨by decide, ?_⟩
  exact c9_error_and_type_do_not_collide
    "// $ExpectError\nconst x = 1; // $ExpectType number\n".toList 1
    (ExpectDirective.errorDir, none) (ExpectDirective.typeDir, some "number".toList)
    (Assertion.manual "number".toList) (by decide) (Or.inl ⟨rfl, by decide⟩)

/-- Claim C2, counterexample: the text `"// $ExpectError\nlet x: string =
1; // $ExpectError\n"` attributes two `$ExpectError` directives to line 1
(one from the comment line above, one trailing), yet after parsing line 1
is still in the error-line set — the duplicate does not cancel the error
expectation, contradicting the claim that no assertion for the line
survives. -/
theorem c2_counterexample :
    dirEventsAt "// $ExpectError\nlet x: string = 1; // $ExpectError\n".toList 1
        = [(ExpectDirective.errorDir, none), (ExpectDirective.errorDir, none)]
    ∧ 1 ∈ (parseAssertions
        "// $ExpectError\nlet x: string = 1; // $ExpectError\n".toList).errorLines := by
  refine ⟨by decide, by decide⟩

/-- Claim C2 (amended): a line carrying two type-family
(`$ExpectType`/`$ExpectTypeSnapshot`, valid payloads) directives ends with
no entry in the type-assertion map and appears exactly once in the
duplicates list; a line carrying two `$ExpectError` directives appears
exactly once in the duplicates list but remains in the error-line set (the
error expectation stays active). Two is the only realizable multiplicity:
each physical line contributes at most one comment, and only the line
above (first-on-line) and the line itself (trailing) can attribute a
comment to a given line. -/
theorem c2_duplicates_amended :
    ∀ (text : List Char) (ℓ : Nat),
      (∀ (e₁ e₂ : ExpectDirective × Option (List Char)) (a₁ a₂ : Assertion),
        dirEventsAt text ℓ = [e₁, e₂] →
        typeFamilyAssertion e₁ = some a₁ → typeFamilyAssertion e₂ = some a₂ →
        mapGet (parseAssertions text).typeAssertions ℓ = none
          ∧ (parseAssertions text).duplicates.count ℓ = 1)
      ∧ (∀ (e₁ e₂ : ExpectDirective × Option (List Char)),
        dirEventsAt text ℓ = [e₁, e₂] →
        e₁.1 = ExpectDirective.errorDir → e₂.1 = ExpectDirective.errorDir →
        ℓ ∈ (parseAssertions text).errorLines
          ∧ (parseAssertions text).duplicates.count ℓ = 1) := by
  intro text ℓ
  constructor
  · intro e₁ e₂ a₁ a₂ hev h₁ h₂
    have hv := parseAssertions_lineView text ℓ
    rw [hev] at hv
    have hL : lineView (parseAssertions text) ℓ = ⟨false, none, 1⟩ := by
      rw [hv, List.foldl_cons, List.foldl_cons, List.foldl_nil]
      rw [lineStep_typeFamily false 0 e₁ a₁ h₁]
      exact lineStep_typeFamily_collide false a₁ 0 e₂ a₂ h₂
    exact ⟨congrArg LineState.entry hL, congrArg LineState.dupCount hL⟩
  · intro e₁ e₂ hev h₁ h₂
    have hv := parseAssertions_lineView text ℓ
    rw [hev] at hv
    have hL : lineView (parseAssertions text) ℓ = ⟨true, none, 1⟩ := by
      rw [hv, List.foldl_cons, List.foldl_cons, List.foldl_nil]
      rw [lineStep_error false none 0 e₁ h₁]
      simp only [Bool.false_eq_true, if_false]
      rw [lineStep_error true none 0 e₂ h₂]
      simp
    exact ⟨of_decide_eq_true (congrArg LineState.hasError hL),
      congrArg LineState.dupCount hL⟩

theorem c2_duplicates_amended_witness :
    (mapGet (parseAssertions
          "// $ExpectType number\nconst x = 1; // $ExpectType string\n".toList).typeAssertions 1
        = none
      ∧ (parseAssertions
          "// $ExpectType number\nconst x = 1; // $ExpectType string\n".toList).duplicates.count 1
        = 1)
    ∧ (1 ∈ (parseAssertions
          "// $ExpectError\nlet x: string = 1; // $ExpectError\n".toList).errorLines
      ∧ (parseAssertions
          "// $ExpectError\nlet x: string = 1; // $ExpectError\n".toList).duplicates.count 1
        = 1) := by
  constructor
  · exact (c2_duplicates_amended
      "// $ExpectType number\nconst x = 1; // $ExpectType string\n".toList 1).1
      (ExpectDirective.typeDir, some "number".toList)
      (ExpectDirective.typeDir, some "string".toList)
      (Assertion.manual "number".toList) (Assertion.manual "string".toList)
      (by decide) (by decide) (by decide)
  · exact (c2_duplicates_amended
      "// $ExpectError\nlet x: string = 1; // $ExpectError\n".toList 1).2
      (ExpectDirective.errorDir, none) (ExpectDirective.errorDir, none)
      (by decide) rfl rfl

/-! ## C3: the twoslash continuation lookahead -/

/-- `thisLineEnd` of the lookahead loop: the position of the newline
terminating line `n` (end-of-line, exclusive of the newline), or the text
length for the last line. -/
def contLineEnd (text : List Char) (ls : List Nat) (n : Nat) : Nat :=
  if n + 1 < ls.length then ls.getD (n + 1) 0 - 1 else text.length

/-- The text of physical line `n` as the lookahead loop slices it:
`sourceText.slice(lineStarts[nextLine], thisLineEnd + 1)` — note the slice
includes the terminating newline whenever the line is not the last line of
the file. -/
def contLineText (text : List Char) (ls : List Nat) (n : Nat) : List Char :=
  (text.drop (ls.getD n 0)).take (contLineEnd text ls n + 1 - ls.getD n 0)

/-- The concatenation of the continuation-line remainders (each keeping
its terminating newline) for `k` lines starting at line `start`. -/
def contSuffixes (text : List Char) (ls : List Nat) (pfx : List Char) (start : Nat) :
    Nat → List Char
  | 0 => []
  | k + 1 => (contLineText text ls start).drop pfx.length
      ++ contSuffixes text ls pfx (start + 1) k

/-- The lookahead loop from a line strictly after the comment line (so
the one-off `expected += '\n'` no longer fires): it consumes exactly the
lines matching the recorded continuation text, appends each line's
remainder (with its terminating newline), and moves the range end to the
end of the last consumed line. -/
theorem twoslashLookahead_rest (text : List Char) (ls : List Nat) (commentLine : Nat)
    (pfx : List Char) :
    ∀ (k start : Nat) (base : List Char) (re0 : Int), commentLine < start →
    start + k ≤ ls.length →
    (∀ i, i < k → pfx.isPrefixOf (contLineText text ls (start + i))) →
    (ls.length ≤ start + k ∨ ¬ pfx.isPrefixOf (contLineText text ls (start + k))) →
    twoslashLookahead text ls commentLine pfx (ls.length - start) start base re0
      = (base ++ contSuffixes text ls pfx start k,
         if k = 0 then re0 else (contLineEnd text ls (start + k - 1) : Int),
         k) := by
  intro k
  induction k with
  | zero =>
    intro start base re0 hcl hlen hall hstop
    by_cases hend : ls.length ≤ start
    · rw [show ls.length - start = 0 by omega, twoslashLookahead]
      simp [contSuffixes]
    · rw [show ls.length - start = (ls.length - start - 1) + 1 by omega, twoslashLookahead]
      have hnm : ¬ pfx.isPrefixOf (contLineText text ls start) := by
        rcases hstop with h | h
        · omega
        · simpa using h
      rw [if_neg (by simpa [contLineText, contLineEnd] using hnm)]
      simp [contSuffixes]
  | succ k ih =>
    intro start base re0 hcl hlen hall hstop
    have hlt : start < ls.length := by omega
    rw [show ls.length - start = (ls.length - (start + 1)) + 1 by omega, twoslashLookahead]
    have hm : pfx.isPrefixOf (contLineText text ls start) := by
      have := hall 0 (by omega)
      simpa using this
    rw [if_pos (by simpa [contLineText, contLineEnd] using hm)]
    rw [if_neg (by omega : ¬ start = commentLine)]
    dsimp only
    simp only [← contLineEnd.eq_def]
    simp only [← contLineText.eq_def]
    rw [ih (start + 1) (base ++ (contLineText text ls start).drop pfx.length)
      (contLineEnd text ls start : Int) (by omega) (by omega)
      (fun i hi => by
        have := hall (i + 1) (by omega)
        simpa [Nat.add_assoc, Nat.add_comm 1 i] using this)
      (by
        rcases hstop with h | h
        · exact Or.inl (by omega)
        · refine Or.inr ?_
          simpa [Nat.add_assoc, Nat.add_comm 1 k] using h)]
    dsimp only
    refine congrArg₂ _ ?_ (congrArg₂ _ ?_ rfl)
    · simp [contSuffixes, List.append_assoc]
    · rw [if_neg (by omega : ¬ k + 1 = 0)]
      cases k with
      | zero => simp
      | succ k =>
        rw [if_neg (by omega : ¬ k + 1 = 0)]
        congr 2
        omega

/-- The full lookahead from the comment line: with `k` matching
continuation lines followed by a non-matching line (or the end of the
line table), the loop consumes exactly `k` lines, produces
`base ++ "\n" ++ (the k remainders, each keeping its terminating
newline)`, and moves the range end to the end of the k-th line. -/
theorem twoslashLookahead_spec (text : List Char) (ls : List Nat) (commentLine : Nat)
    (pfx : List Char) :
    ∀ (k : Nat) (base : List Char) (re0 : Int),
    commentLine + k ≤ ls.length →
    (∀ i, i < k → pfx.isPrefixOf (contLineText text ls (commentLine + i))) →
    (ls.length ≤ commentLine + k ∨ ¬ pfx.isPrefixOf (contLineText text ls (commentLine + k))) →
    twoslashLookahead text ls commentLine pfx (ls.length - commentLine) commentLine base re0
      = (base ++ (if k = 0 then [] else '\n' :: contSuffixes text ls pfx commentLine k),
         if k = 0 then re0 else (contLineEnd text ls (commentLine + k - 1) : Int),
         k) := by
  intro k base re0 hlen hall hstop
  cases k with
  | zero =>
    by_cases hend : ls.length ≤ commentLine
    · rw [show ls.length - commentLine = 0 by omega, twoslashLookahead]
      simp
    · rw [show ls.length - commentLine = (ls.length - commentLine - 1) + 1 by omega,
        twoslashLookahead]
      have hnm : ¬ pfx.isPrefixOf (contLineText text ls commentLine) := by
        rcases hstop with h | h
        · omega
        · simpa using h
      rw [if_neg (by simpa [contLineText, contLineEnd] using hnm)]
      simp
  | succ k =>
    have hlt : commentLine < ls.length := by omega
    rw [show ls.length - commentLine = (ls.length - (commentLine + 1)) + 1 by omega,
      twoslashLookahead]
    have hm : pfx.isPrefixOf (contLineText text ls commentLine) := by
      have := hall 0 (by omega)
      simpa using this
    rw [if_pos (by simpa [contLineText, contLineEnd] using hm)]
    rw [if_pos rfl]
    dsimp only
    simp only [← contLineEnd.eq_def]
    simp only [← contLineText.eq_def]
    rw [twoslashLookahead_rest text ls commentLine pfx k (commentLine + 1)
      ((base ++ ['\n']) ++ (contLineText text ls commentLine).drop pfx.length)
      (contLineEnd text ls commentLine : Int) (by omega) (by omega)
      (fun i hi => by
        have := hall (i + 1) (by omega)
        simpa [Nat.add_assoc, Nat.add_comm 1 i] using this)
      (by
        rcases hstop with h | h
        · exact Or.inl (by omega)
        · refine Or.inr ?_
          simpa [Nat.add_assoc, Nat.add_comm 1 k] using h)]
    dsimp only
    refine congrArg₂ _ ?_ (congrArg₂ _ ?_ rfl)
    · simp [contSuffixes, List.append_assoc]
    · rw [if_neg (by omega : ¬ k + 1 = 0)]
      cases k with
      | zero => simp
      | succ k =>
        rw [if_neg (by omega : ¬ k + 1 = 0)]
        congr 2
        omega

/-- Claim C3, counterexample: with one continuation line the parsed
expected text is `"A\nB\n"` — the continuation remainder keeps its
terminating newline, so the result is not the plain `'\n'`-join `"A\nB"`
of the two fragments that the claim requires. The range end (32) is the
end of the last continuation line, as claimed. -/
theorem c3_counterexample :
    (parseAssertions "const x = 1;\n//   ^? A\n//      B\nrest\n".toList).twoSlashAssertions
      = [⟨5, "A\nB\n".toList, (21, 32), "//      ".toList, false⟩]
    ∧ "A\nB\n".toList ≠ "A\nB".toList := by
  refine ⟨by decide, by decide⟩

/-- Claim C3 (amended): for a caret assertion followed by `k ≥ 1` lines
starting with the recorded continuation text, the lookahead consumes
exactly `k` lines (stopping at the first non-matching line or the end of
the line table), extends the range end to the end of the k-th continuation
line, and produces `base ++ "\n" ++ s₁ ++ ... ++ sₖ` where each `sᵢ` is
the i-th continuation line's remainder *including its terminating
newline*: the fragments are newline-joined, with an extra trailing
newline whenever the last continuation line is terminated by a newline in
the file. -/
theorem c3_continuation_amended :
    ∀ (text : List Char) (ls : List Nat) (commentLine : Nat) (pfx : List Char)
      (k : Nat) (base : List Char) (re0 : Int),
    commentLine + k ≤ ls.length →
    (∀ i, i < k → pfx.isPrefixOf (contLineText text ls (commentLine + i))) →
    (ls.length ≤ commentLine + k ∨ ¬ pfx.isPrefixOf (contLineText text ls (commentLine + k))) →
    twoslashLookahead text ls commentLine pfx (ls.length - commentLine) commentLine base re0
      = (base ++ (if k = 0 then [] else '\n' :: contSuffixes text ls pfx commentLine k),
         if k = 0 then re0 else (contLineEnd text ls (commentLine + k - 1) : Int),
         k) := by
  intro text ls commentLine pfx k base re0 h1 h2 h3
  exact twoslashLookahead_spec text ls commentLine pfx k base re0 h1 h2 h3

theorem c3_continuation_amended_witness :
    (2 + 1 ≤ (lineStartsOf "const x = 1;\n//   ^? A\n//      B\nrest\n".toList).length)
    ∧ twoslashLookahead "const x = 1;\n//   ^? A\n//      B\nrest\n".toList
        (lineStartsOf "const x = 1;\n//   ^? A\n//      B\nrest\n".toList) 2
        "//      ".toList
        ((lineStartsOf "const x = 1;\n//   ^? A\n//      B\nrest\n".toList).length - 2) 2
        "A".toList 22
      = ("A\nB\n".toList, (32 : Int), 1) := by
  refine ⟨by decide, ?_⟩
  rw [c3_continuation_amended "const x = 1;\n//   ^? A\n//      B\nrest\n".toList
    (lineStartsOf "const x = 1;\n//   ^? A\n//      B\nrest\n".toList) 2
    "//      ".toList 1 "A".toList 22 (by decide) (by decide) (by decide)]
  decide

/-! ## C6: `matchModuloWhitespace` (expect.ts lines 599-605) and the
manual/snapshot comparison (line 546) -/

/-- The regex class `[\n ]` of `matchModuloWhitespace`. -/
def isSpNl (c : Char) : Bool :=
  c = ' ' || c = '\n'

/-- Embeds `.replace(/[\n ]+/g, ' ')` as a state machine: `inRun` records
whether the previous character belonged to a space/newline run (in which
case further run characters are dropped; the first produced the single
`' '`). -/
def collapseRuns : Bool → List Char → List Char
  | _, [] => []
  | inRun, c :: t =>
    if isSpNl c then
      if inRun then collapseRuns true t else ' ' :: collapseRuns true t
    else
      c :: collapseRuns false t

/-- Strip trailing JavaScript whitespace. -/
def trimEnd (s : List Char) : List Char :=
  (s.reverse.dropWhile isWsChar).reverse

/-- Embeds JavaScript `String.prototype.trim()` (over the ASCII whitespace
actually reachable here; the exotic Unicode space characters JavaScript
also trims cannot occur in the claims' inputs). -/
def jsTrim (s : List Char) : List Char :=
  trimEnd (s.dropWhile isWsChar)

/-- Embeds `matchModuloWhitespace(actual, expected)`:
`actual.replace(/[\n ]+/g, ' ').trim() === expected.replace(...).trim()`. -/
def matchModuloWhitespace (actual expected : List Char) : Bool :=
  jsTrim (collapseRuns false actual) == jsTrim (collapseRuns false expected)

/-- Embeds the satisfaction condition of a manual/snapshot assertion, the
negation of the unmet test `!expected || (actual !== expected &&
!matchReadonlyArray(actual, expected))` at expect.ts line 546. -/
def typeAssertionUnmet (expected : Option (List Char)) (actual : List Char) : Bool :=
  !truthyPayload expected
    || (!(actual == expected.getD []) && !matchReadonlyArray actual (expected.getD []))

/-- Stated from the claim's words, not from the source: the space/newline
words of a string, in order — the claim's normal form is these words
joined by single spaces. -/
def wsTokensAux : List Char → List Char → List (List Char)
  | acc, [] => if acc = [] then [] else [acc.reverse]
  | acc, c :: t =>
    if isSpNl c then
      if acc = [] then wsTokensAux [] t else acc.reverse :: wsTokensAux [] t
    else
      wsTokensAux (c :: acc) t

/-- The maximal space/newline-free words of a string. -/
def wsTokens (s : List Char) : List (List Char) :=
  wsTokensAux [] s

/-- Join with single spaces. -/
def joinSp : List (List Char) → List Char
  | [] => []
  | [t] => t
  | t :: ts => t ++ ' ' :: joinSp ts

/-- The string contains no whitespace other than spaces and newlines. -/
def cleanWs (s : List Char) : Prop :=
  ∀ c ∈ s, isWsChar c = true → isSpNl c = true

theorem collapseRuns_true_eq (u : List Char) :
    collapseRuns true u = collapseRuns false (u.dropWhile isSpNl) := by
  induction u with
  | nil => rfl
  | cons c t ih =>
    by_cases hc : isSpNl c
    · rw [List.dropWhile_cons, if_pos hc]
      simp only [collapseRuns, if_pos hc]
      exact ih
    · rw [List.dropWhile_cons, if_neg hc]
      simp [collapseRuns, hc]

theorem collapseRuns_token (u v : List Char) (h : ∀ c ∈ u, ¬ isSpNl c) :
    collapseRuns false (u ++ v) = u ++ collapseRuns false v := by
  induction u with
  | nil => rfl
  | cons c t ih =>
    have hc : ¬ isSpNl c = true := h c (List.mem_cons_self c t)
    rw [List.cons_append]
    simp only [collapseRuns, if_neg hc]
    rw [ih (fun x hx => h x (List.mem_cons_of_mem c hx))]
    rfl

theorem jsTrim_cons_space (x : List Char) : jsTrim (' ' :: x) = jsTrim x := by
  rw [jsTrim, jsTrim, List.dropWhile_cons, if_pos (by decide)]

theorem wsTokens_cons_ws (c : Char) (t : List Char) (hc : isSpNl c) :
    wsTokens (c :: t) = wsTokens t := by
  simp [wsTokens, wsTokensAux, hc]

theorem wsTokens_dropWhile (u : List Char) :
    wsTokens (u.dropWhile isSpNl) = wsTokens u := by
  induction u with
  | nil => rfl
  | cons c t ih =>
    by_cases hc : isSpNl c
    · rw [List.dropWhile_cons, if_pos hc, wsTokens_cons_ws c t hc]
      exact ih
    · rw [List.dropWhile_cons, if_neg hc]

theorem wsTokensAux_token (u : List Char) (h : ∀ c ∈ u, ¬ isSpNl c) :
    ∀ (acc rest : List Char),
    wsTokensAux acc (u ++ rest) = wsTokensAux (u.reverse ++ acc) rest := by
  induction u with
  | nil => intro acc rest; simp
  | cons c t ih =>
    intro acc rest
    have hc : ¬ isSpNl c = true := h c (List.mem_cons_self c t)
    rw [List.cons_append]
    simp only [wsTokensAux, if_neg hc]
    rw [ih (fun x hx => h x (List.mem_cons_of_mem c hx)) (c :: acc) rest]
    congr 1
    simp

theorem wsTokens_token_nil (u : List Char) (hu : u ≠ []) (h : ∀ c ∈ u, ¬ isSpNl c) :
    wsTokens u = [u] := by
  have := wsTokensAux_token u h [] []
  rw [List.append_nil] at this
  rw [wsTokens, this, List.append_nil, wsTokensAux]
  rw [if_neg (by simpa using hu)]
  simp

theorem wsTokens_token_ws (u : List Char) (d : Char) (r : List Char) (hu : u ≠ [])
    (h : ∀ c ∈ u, ¬ isSpNl c) (hd : isSpNl d) :
    wsTokens (u ++ d :: r) = u :: wsTokens r := by
  have := wsTokensAux_token u h [] (d :: r)
  rw [List.append_nil] at this
  rw [wsTokens, this, wsTokensAux]
  rw [if_pos hd, if_neg (by simpa using hu)]
  simp [wsTokens]

theorem trimEnd_append_allws (u v : List Char) (hv : ∀ c ∈ v, isWsChar c) :
    trimEnd (u ++ v) = trimEnd u := by
  rw [trimEnd, trimEnd, List.reverse_append]
  congr 1
  rw [List.dropWhile_append, if_pos]
  simp only [List.isEmpty_iff, List.dropWhile_eq_nil_iff]
  intro x hx
  exact hv x (List.mem_reverse.mp hx)

theorem trimEnd_append_token (u v : List Char) (_hu : ∀ c ∈ u, ¬ isWsChar c)
    (hv : ¬ trimEnd v = []) :
    trimEnd (u ++ v) = u ++ trimEnd v := by
  rw [trimEnd, trimEnd, List.reverse_append, List.dropWhile_append]
  rw [if_neg (by
    simp only [List.isEmpty_iff]
    intro hcon
    exact hv (by rw [trimEnd, hcon]; rfl))]
  rw [List.reverse_append, List.reverse_reverse]

theorem trimEnd_eq_nil_iff (v : List Char) : trimEnd v = [] ↔ ∀ c ∈ v, isWsChar c := by
  rw [trimEnd]
  constructor
  · intro h c hc
    have : v.reverse.dropWhile isWsChar = [] := by
      cases hx : v.reverse.dropWhile isWsChar
      · rfl
      · rw [hx] at h
        simp at h
    rw [List.dropWhile_eq_nil_iff] at this
    exact this c (List.mem_reverse.mpr hc)
  · intro h
    rw [show v.reverse.dropWhile isWsChar = [] from
      List.dropWhile_eq_nil_iff.mpr (fun x hx => h x (List.mem_reverse.mp hx))]
    rfl

theorem trimEnd_token (u : List Char) (h : ∀ c ∈ u, ¬ isWsChar c) : trimEnd u = u := by
  rw [trimEnd]
  rw [show u.reverse.dropWhile isWsChar = u.reverse from ?_, List.reverse_reverse]
  cases hu : u.reverse with
  | nil => rfl
  | cons d r =>
    rw [List.dropWhile_cons, if_neg (h d (by
      rw [← List.mem_reverse, hu]
      exact List.mem_cons_self d r))]

theorem trimEnd_cons (c : Char) (v : List Char) (h : ¬ trimEnd v = []) :
    trimEnd (c :: v) = c :: trimEnd v := by
  rw [trimEnd, show (c :: v).reverse = v.reverse ++ [c] from by simp,
    List.dropWhile_append]
  rw [if_neg (by
    simp only [List.isEmpty_iff]
    intro hcon
    exact h (by rw [trimEnd, hcon]; rfl))]
  rw [List.reverse_append, trimEnd]
  rfl

theorem dropWhile_head_false (p : Char → Bool) :
    ∀ (t : List Char) (d : Char) (r : List Char), t.dropWhile p = d :: r → p d = false := by
  intro t
  induction t with
  | nil => intro d r h; simp at h
  | cons c t ih =>
    intro d r h
    rw [List.dropWhile_cons] at h
    by_cases hc : p c
    · rw [if_pos hc] at h
      exact ih d r h
    · rw [if_neg hc] at h
      cases h
      simpa using hc

theorem wsTokensAux_ne_nil : ∀ (u acc : List Char), acc ≠ [] → wsTokensAux acc u ≠ [] := by
  intro u
  induction u with
  | nil => intro acc h; simp [wsTokensAux, h]
  | cons c t ih =>
    intro acc h
    rw [wsTokensAux]
    by_cases hc : isSpNl c
    · rw [if_pos hc, if_neg h]
      simp
    · rw [if_neg hc]
      exact ih (c :: acc) (by simp)

theorem wsTokens_cons_ne_nil (e : Char) (u : List Char) (he : ¬ isSpNl e) :
    wsTokens (e :: u) ≠ [] := by
  rw [wsTokens, wsTokensAux, if_neg he]
  exact wsTokensAux_ne_nil u [e] (by simp)

theorem joinSp_cons_of_ne (t : List Char) (ts : List (List Char)) (h : ts ≠ []) :
    joinSp (t :: ts) = t ++ ' ' :: joinSp ts := by
  cases ts with
  | nil => exact absurd rfl h
  | cons t2 ts2 => rfl

theorem jsTrim_head_not_ws (c : Char) (x : List Char) (hc : ¬ isWsChar c) :
    jsTrim (c :: x) = trimEnd (c :: x) := by
  rw [jsTrim, List.dropWhile_cons, if_neg hc]

theorem cleanWs_of_sublist {u s : List Char} (hsub : u.Sublist s) (h : cleanWs s) :
    cleanWs u :=
  fun c hc hw => h c (hsub.subset hc) hw

/-- Bounded-length induction: on strings whose only whitespace is spaces
and newlines, the code's collapse-then-trim normalization produces
exactly the space/newline words joined by single spaces. -/
theorem normalize_eq_joinSp_aux : ∀ (n : Nat) (s : List Char), s.length ≤ n → cleanWs s →
    jsTrim (collapseRuns false s) = joinSp (wsTokens s) := by
  intro n
  induction n with
  | zero =>
    intro s hlen _
    have : s = [] := List.eq_nil_of_length_eq_zero (by omega)
    subst this
    rfl
  | succ n ih =>
    intro s hlen hcw
    cases s with
    | nil => rfl
    | cons c t =>
      by_cases hc : isSpNl c
      · rw [show collapseRuns false (c :: t) = ' ' :: collapseRuns true t from by
          simp [collapseRuns, hc]]
        rw [collapseRuns_true_eq, jsTrim_cons_space, wsTokens_cons_ws c t hc,
          ← wsTokens_dropWhile t]
        refine ih (t.dropWhile isSpNl) ?_ ?_
        · have hsub : (t.dropWhile isSpNl).Sublist t := List.dropWhile_sublist _
          have := hsub.length_le
          simp only [List.length_cons] at hlen
          omega
        · exact cleanWs_of_sublist ((List.dropWhile_sublist _).trans (List.sublist_cons_self c t))
            hcw
      · have hcws : ¬ isWsChar c := fun hw => hc (hcw c (List.mem_cons_self c t) hw)
        have hsplit : t = t.takeWhile (fun x => !(isSpNl x)) ++ t.dropWhile (fun x => !(isSpNl x)) :=
          (List.takeWhile_append_dropWhile _ _).symm
        have htok : ∀ x ∈ c :: t.takeWhile (fun x => !(isSpNl x)), ¬ isSpNl x := by
          intro x hx
          rcases List.mem_cons.mp hx with h1 | h1
          · exact h1 ▸ hc
          · have := List.mem_takeWhile_imp h1
            simpa using this
        have htokws : ∀ x ∈ c :: t.takeWhile (fun x => !(isSpNl x)), ¬ isWsChar x := by
          intro x hx hw
          refine htok x hx (hcw x ?_ hw)
          rcases List.mem_cons.mp hx with h1 | h1
          · exact h1 ▸ List.mem_cons_self c t
          · exact List.mem_cons_of_mem c ((List.takeWhile_sublist _).subset h1)
        have hs2 : c :: t
            = (c :: t.takeWhile (fun x => !(isSpNl x))) ++ t.dropWhile (fun x => !(isSpNl x)) := by
          rw [List.cons_append]
          exact congrArg (c :: ·) hsplit
        rw [hs2, collapseRuns_token _ _ htok]
        cases hrest : t.dropWhile (fun x => !(isSpNl x)) with
        | nil =>
          rw [show collapseRuns false [] = [] from rfl, List.append_nil]
          rw [jsTrim_head_not_ws _ _ hcws]
          rw [trimEnd_token _ htokws]
          rw [wsTokens_token_nil _ (by simp) htok]
          rfl
        | cons d r =>
          have hd : isSpNl d := by
            have := dropWhile_head_false _ t d r hrest
            simpa using this
          rw [show collapseRuns false (d :: r) = ' ' :: collapseRuns true r from by
            simp [collapseRuns, hd]]
          rw [collapseRuns_true_eq]
          rw [wsTokens_token_ws _ d r (by simp) htok hd, ← wsTokens_dropWhile r]
          have hlen' : (r.dropWhile isSpNl).length ≤ n := by
            have h0 : (r.dropWhile isSpNl).Sublist r := List.dropWhile_sublist _
            have h1 := h0.length_le
            have h2 : (d :: r).length ≤ t.length := by
              rw [← hrest]
              exact (List.dropWhile_sublist _).length_le
            simp only [List.length_cons] at hlen h2
            omega
          have hcw' : cleanWs (r.dropWhile isSpNl) := by
            refine cleanWs_of_sublist ?_ hcw
            refine ((List.dropWhile_sublist _).trans ?_)
            have h2 : (d :: r).Sublist t := by
              rw [← hrest]
              exact List.dropWhile_sublist _
            exact ((List.sublist_cons_self d r).trans h2).trans (List.sublist_cons_self c t)
          have ihr := ih (r.dropWhile isSpNl) hlen' hcw'
          cases hr' : r.dropWhile isSpNl with
          | nil =>
            rw [show collapseRuns false [] = [] from rfl]
            rw [show (c :: t.takeWhile (fun x => !(isSpNl x))) ++ ' ' :: ([] : List Char)
                = c :: (t.takeWhile (fun x => !(isSpNl x)) ++ [' ']) from by simp]
            rw [jsTrim_head_not_ws _ _ hcws]
            rw [show c :: (t.takeWhile (fun x => !(isSpNl x)) ++ [' '])
                = (c :: t.takeWhile (fun x => !(isSpNl x))) ++ [' '] from by simp]
            rw [trimEnd_append_allws _ [' '] (by intro x hx; simp at hx; rw [hx]; rfl)]
            rw [trimEnd_token _ htokws]
            rfl
          | cons e r2 =>
            have he : ¬ isSpNl e := by
              have := dropWhile_head_false _ r e r2 (by simpa using hr')
            -- dropWhile with predicate isSpNl: head satisfies ¬ isSpNl
              simpa using this
            have hX : collapseRuns false (e :: r2) = e :: collapseRuns false r2 := by
              simp [collapseRuns, he]
            have hXne : ¬ trimEnd (collapseRuns false (e :: r2)) = [] := by
              rw [hX, trimEnd_eq_nil_iff]
              intro hall
              have hew : isWsChar e := hall e (List.mem_cons_self _ _)
              have : isSpNl e := hcw' e (by rw [hr']; exact List.mem_cons_self _ _) hew
              exact he this
            rw [show (c :: t.takeWhile (fun x => !(isSpNl x))) ++ ' ' :: collapseRuns false (e :: r2)
                = c :: (t.takeWhile (fun x => !(isSpNl x)) ++ ' ' :: collapseRuns false (e :: r2))
              from by simp]
            rw [jsTrim_head_not_ws _ _ hcws]
            rw [show c :: (t.takeWhile (fun x => !(isSpNl x))
                  ++ ' ' :: collapseRuns false (e :: r2))
                = (c :: t.takeWhile (fun x => !(isSpNl x)))
                  ++ ' ' :: collapseRuns false (e :: r2) from by simp]
            rw [trimEnd_append_token _ _ htokws (by
              intro hcon
              rw [show (' ' :: collapseRuns false (e :: r2)) = [' ']
                  ++ collapseRuns false (e :: r2) from rfl] at hcon
              rw [trimEnd_eq_nil_iff] at hcon
              exact hXne ((trimEnd_eq_nil_iff _).mpr
                (fun x hx => hcon x (List.mem_append_right _ hx))))]
            rw [trimEnd_cons _ _ hXne]
            have hewns : ¬ isWsChar e := by
              intro hw
              exact he (hcw' e (by rw [hr']; exact List.mem_cons_self _ _) hw)
            have hjs : trimEnd (collapseRuns false (e :: r2))
                = joinSp (wsTokens (e :: r2)) := by
              rw [hr'] at ihr
              rw [hX, ← jsTrim_head_not_ws _ _ hewns, ← hX, ihr]
            rw [hjs, joinSp_cons_of_ne _ _ (wsTokens_cons_ne_nil e r2 (by simpa using he))]


theorem wsTokensAux_props : ∀ (s acc : List Char), (∀ c ∈ acc, ¬ isSpNl c) →
    ∀ t ∈ wsTokensAux acc s, t ≠ [] ∧ ∀ c ∈ t, ¬ isSpNl c := by
  intro s
  induction s with
  | nil =>
    intro acc hacc t ht
    rw [wsTokensAux] at ht
    by_cases ha : acc = []
    · rw [if_pos ha] at ht
      simp at ht
    · rw [if_neg ha] at ht
      simp only [List.mem_singleton] at ht
      subst ht
      refine ⟨by simpa using ha, ?_⟩
      intro c hc
      exact hacc c (List.mem_reverse.mp hc)
  | cons c s ih =>
    intro acc hacc t ht
    rw [wsTokensAux] at ht
    by_cases hc : isSpNl c
    · rw [if_pos hc] at ht
      by_cases ha : acc = []
      · rw [if_pos ha] at ht
        exact ih [] (by simp) t ht
      · rw [if_neg ha] at ht
        rcases List.mem_cons.mp ht with h1 | h1
        · subst h1
          refine ⟨by simpa using ha, ?_⟩
          intro x hx
          exact hacc x (List.mem_reverse.mp hx)
        · exact ih [] (by simp) t h1
    · rw [if_neg hc] at ht
      refine ih (c :: acc) ?_ t ht
      intro x hx
      rcases List.mem_cons.mp hx with h1 | h1
      · exact h1 ▸ hc
      · exact hacc x h1

theorem wsTokens_props (s : List Char) :
    ∀ t ∈ wsTokens s, t ≠ [] ∧ ∀ c ∈ t, ¬ isSpNl c :=
  wsTokensAux_props s [] (by simp)

theorem wsTokens_joinSp : ∀ (ts : List (List Char)),
    (∀ t ∈ ts, t ≠ [] ∧ ∀ c ∈ t, ¬ isSpNl c) →
    wsTokens (joinSp ts) = ts := by
  intro ts
  induction ts with
  | nil => intro _; rfl
  | cons t ts ih =>
    intro h
    cases ts with
    | nil =>
      rw [show joinSp [t] = t from rfl]
      obtain ⟨h1, h2⟩ := h t (List.mem_cons_self _ _)
      exact wsTokens_token_nil t h1 h2
    | cons t2 ts2 =>
      rw [show joinSp (t :: t2 :: ts2) = t ++ ' ' :: joinSp (t2 :: ts2) from rfl]
      obtain ⟨h1, h2⟩ := h t (List.mem_cons_self _ _)
      rw [wsTokens_token_ws t ' ' (joinSp (t2 :: ts2)) h1 h2 (by decide)]
      rw [ih (fun x hx => h x (List.mem_cons_of_mem t hx))]

/-- Claim C6: a caret (twoslash) assertion is satisfied iff actual and
expected agree after every run of spaces and newlines is collapsed and
both ends trimmed — equivalently (on strings whose only whitespace is
spaces and newlines) iff their space/newline words coincide; manual and
snapshot assertions use only exact equality or the read-only-array
equivalence, so `actual = "string |\n  number"` vs
`expected = "string | number"` matches as a caret assertion but is an
unmet expectation under the manual/snapshot comparison. -/
theorem c6_caret_whitespace_normalization :
    (∀ actual expected : List Char, cleanWs actual → cleanWs expected →
      (matchModuloWhitespace actual expected = true ↔ wsTokens actual = wsTokens expected))
    ∧ matchModuloWhitespace "string |\n  number".toList "string | number".toList = true
    ∧ typeAssertionUnmet (some "string | number".toList) "string |\n  number".toList = true := by
  refine ⟨?_, by decide, by decide⟩
  intro actual expected ha he
  have hla := normalize_eq_joinSp_aux actual.length actual le_rfl ha
  have hle := normalize_eq_joinSp_aux expected.length expected le_rfl he
  rw [matchModuloWhitespace]
  constructor
  · intro h
    have heq : jsTrim (collapseRuns false actual) = jsTrim (collapseRuns false expected) := by
      exact eq_of_beq h
    rw [hla, hle] at heq
    have := congrArg wsTokens heq
    rwa [wsTokens_joinSp _ (wsTokens_props actual), wsTokens_joinSp _ (wsTokens_props expected)]
      at this
  · intro h
    rw [hla, hle, h]
    exact beq_self_eq_true _

theorem c6_caret_whitespace_normalization_witness :
    cleanWs "string |\n  number".toList
    ∧ cleanWs "string | number".toList
    ∧ (matchModuloWhitespace "string |\n  number".toList "string | number".toList = true
        ↔ wsTokens "string |\n  number".toList = wsTokens "string | number".toList) := by
  refine ⟨by unfold cleanWs; decide, by unfold cleanWs; decide, ?_⟩
  exact (c6_caret_whitespace_normalization).1 "string |\n  number".toList
    "string | number".toList (by unfold cleanWs; decide) (by unfold cleanWs; decide)

/-! ## C4: the snapshot fix descriptor's lazy store write
(expect.ts lines 160-195) -/

/-- The rule option object (`Options`). -/
structure RuleOptions where
  disableExpectTypeSnapshotFix : Bool

/-- Modelled from the spec: the snapshot store's
`write(fileName, name, text)` operation (`updateTypeSnapshot` lives in
`src/utils/snapshot`, which is outside the provided sources; §6 of the
spec gives its interface). The store is modelled as the ordered log of
performed writes. -/
def updateTypeSnapshot (fileName snapshotName actual : List Char)
    (store : List (List Char × List Char × List Char)) :
    List (List Char × List Char × List Char) :=
  store ++ [(fileName, snapshotName, actual)]

/-- Embeds one read of the `get text()` getter of the `RuleFix` object
built for a reported snapshot assertion: on the first read of this object
(`applied = false`) it sets `applied` and, unless
`disableExpectTypeSnapshotFix` is set, writes the actual type to the
snapshot store; every read returns `''`. Returns
(returned text, new `applied` flag, new store). -/
def snapshotFixRead (options : RuleOptions) (fileName snapshotName actual : List Char)
    (applied : Bool) (store : List (List Char × List Char × List Char)) :
    List Char × Bool × List (List Char × List Char × List Char) :=
  if !applied then
    ([], true,
      if !options.disableExpectTypeSnapshotFix then
        updateTypeSnapshot fileName snapshotName actual store
      else store)
  else
    ([], applied, store)

/-- `k` successive reads of the same fix object's `text`, collecting the
returned replacement texts. -/
def snapshotFixReadN (options : RuleOptions) (fileName snapshotName actual : List Char) :
    Nat → Bool × List (List Char × List Char × List Char) →
    List (List Char) × Bool × List (List Char × List Char × List Char)
  | 0, s => ([], s)
  | k + 1, s =>
    let r := snapshotFixRead options fileName snapshotName actual s.1 s.2
    let rest := snapshotFixReadN options fileName snapshotName actual k (r.2.1, r.2.2)
    (r.1 :: rest.1, rest.2)

theorem snapshotFixReadN_applied (options : RuleOptions) (f n a : List Char) :
    ∀ (k : Nat) (store : List (List Char × List Char × List Char)),
    snapshotFixReadN options f n a k (true, store) = (List.replicate k [], true, store) := by
  intro k
  induction k with
  | zero => intro store; rfl
  | succ k ih =>
    intro store
    rw [snapshotFixReadN]
    simp only [snapshotFixRead, Bool.not_true]
    rw [if_neg (by simp)]
    rw [ih store]
    rfl

/-- Claim C4: reading the snapshot fix descriptor's replacement text any
number of times performs the store write at most once in total (exactly
once when fixes are enabled and at least one read happens), performs it
zero times when `disableExpectTypeSnapshotFix` is set, and every read
returns the empty string — so applying the fix never changes the source
text. -/
theorem c4_snapshot_fix_write_once :
    ∀ (options : RuleOptions) (f n a : List Char) (k : Nat),
    (snapshotFixReadN options f n a k (false, [])).1 = List.replicate k []
    ∧ (snapshotFixReadN options f n a k (false, [])).2.2
      = (if options.disableExpectTypeSnapshotFix ∨ k = 0 then [] else [(f, n, a)]) := by
  intro options f n a k
  cases k with
  | zero =>
    constructor
    · rfl
    · rw [if_pos (Or.inr rfl)]
      rfl
  | succ k =>
    rw [snapshotFixReadN]
    simp only [snapshotFixRead, Bool.not_false]
    rw [if_pos trivial]
    cases hd : options.disableExpectTypeSnapshotFix
    · rw [if_pos (by simp [hd])]
      rw [snapshotFixReadN_applied]
      constructor
      · rfl
      · simp [updateTypeSnapshot]
    · rw [if_neg (by simp [hd])]
      rw [snapshotFixReadN_applied]
      constructor
      · rfl
      · simp

/-! ## The syntax-tree model for `getExpectTypeFailures`
(expect.ts lines 517-621)

A node carries the fields the source reads: its start/end offsets
(`getStart()` / `getEnd()`), its `kind`, the declarator initializers the
`VariableStatement` special case inspects (`declarationList.declarations`,
each with its optional `initializer`), and the children `ts.forEachChild`
visits. For an `ExpressionStatement`, `ts.forEachChild` visits exactly its
`expression`, so the model stores the expression as the sole child. The
external collaborators are parameters: `lineOf` for
`lineOfPosition(node.getStart(sourceFile))`, `checker` for
`getTypeAtLocation` followed by `typeToString` (`none` for an absent
type), `quickInfo` for `getQuickInfoAtPosition` followed by joining the
display parts (`none` when there is no quick info). -/

inductive NodeKind where
  | expressionStatement
  | variableStatement
  | other
deriving Repr, DecidableEq

inductive TsNode where
  | mk (startPos : Nat) (endPos : Nat) (kind : NodeKind)
      (declInits : List (Option TsNode)) (children : List TsNode) : TsNode

def TsNode.startPos : TsNode → Nat
  | .mk s _ _ _ _ => s

def TsNode.endPos : TsNode → Nat
  | .mk _ e _ _ _ => e

def TsNode.kind : TsNode → NodeKind
  | .mk _ _ k _ _ => k

def TsNode.declInits : TsNode → List (Option TsNode)
  | .mk _ _ _ d _ => d

def TsNode.children : TsNode → List TsNode
  | .mk _ _ _ _ c => c

/-- `(node as ts.ExpressionStatement).expression`: the sole child
`ts.forEachChild` visits for an expression statement. -/
def expressionOf (node : TsNode) : TsNode :=
  node.children.headD node

/-- Embeds `getNodeForExpectType(node)` (expect.ts lines 607-621): a
variable statement whose declaration list has exactly one declarator with
an initializer is retargeted to that initializer. -/
def getNodeForExpectType (node : TsNode) : TsNode :=
  match node.kind with
  | NodeKind.variableStatement =>
    match node.declInits with
    | [some initializer] => initializer
    | _ => node
  | _ => node

/-- The reassignment `node = (node as ts.ExpressionStatement).expression`
performed when a bound node is an expression statement. -/
def iterTarget (node : TsNode) : TsNode :=
  match node.kind with
  | NodeKind.expressionStatement => expressionOf node
  | _ => node

/-- The `actual` string computed for a bound node: the checker's type
text of `getNodeForExpectType` applied to the (possibly reassigned) node,
or `''` when there is no type. -/
def actualOfNode (checker : TsNode → Option (List Char)) (node : TsNode) : List Char :=
  (checker (getNodeForExpectType (iterTarget node))).getD []

/-- `const { expected } = assertion` — the JavaScript field read works on
every variant of the union. -/
def expectedOf : Assertion → Option (List Char)
  | Assertion.twoslash t => some t.expected
  | Assertion.manual e => some e
  | Assertion.snapshot _ e => e

/-- The output of the tree-walking phase of `getExpectTypeFailures`,
with two ghost fields recording the visit order and every comparison
performed (they instrument the proof and do not affect the other
fields). -/
structure TraverseOut where
  assertions : List (Nat × Assertion)
  visited : List TsNode
  compared : List (Nat × Assertion × TsNode × List Char)
  unmet : List (Assertion × TsNode × List Char)

theorem sizeOf_children_lt (node : TsNode) : sizeOf node.children < sizeOf node := by
  cases node with
  | mk s e k d c =>
    simp [TsNode.children]

theorem sizeOf_iterTarget_children_lt (node : TsNode) :
    sizeOf (iterTarget node).children < sizeOf node := by
  cases hk : node.kind <;> simp only [iterTarget, hk]
  case expressionStatement =>
    cases node with
    | mk s e k d c =>
      cases c with
      | nil =>
        have h1 : expressionOf (TsNode.mk s e k d []) = TsNode.mk s e k d [] := by
          simp [expressionOf, TsNode.children]
        rw [h1]
        exact sizeOf_children_lt _
      | cons c1 cs =>
        have h1 : expressionOf (TsNode.mk s e k d (c1 :: cs)) = c1 := by
          simp [expressionOf, TsNode.children]
        rw [h1]
        have h2 := sizeOf_children_lt c1
        have h3 : sizeOf c1 < sizeOf (TsNode.mk s e k d (c1 :: cs)) := by
          simp
          omega
        omega
  all_goals exact sizeOf_children_lt node

mutual
/-- Embeds the recursive `iterate(node)` of `getExpectTypeFailures`
(expect.ts lines 528-554), returning the surviving assertion map and the
visit/comparison/unmet-expectation lists this call contributes. -/
def iterate (lineOf : Nat → Nat) (checker : TsNode → Option (List Char))
    (node : TsNode) (m : List (Nat × Assertion)) : TraverseOut :=
  match mapGet m (lineOf node.startPos) with
  | some assertion =>
    let node1 := iterTarget node
    let actual := (checker (getNodeForExpectType node1)).getD []
    let r := iterateList lineOf checker node1.children (mapDelete m (lineOf node.startPos)).2
    ⟨r.assertions, node :: r.visited,
      (lineOf node.startPos, assertion, node, actual) :: r.compared,
      (if typeAssertionUnmet (expectedOf assertion) actual then [(assertion, node1, actual)]
       else []) ++ r.unmet⟩
  | none =>
    let r := iterateList lineOf checker node.children m
    ⟨r.assertions, node :: r.visited, r.compared, r.unmet⟩
termination_by sizeOf node
decreasing_by
  · exact sizeOf_iterTarget_children_lt node
  · exact sizeOf_children_lt node

/-- `ts.forEachChild(…, iterate)` over a list of sibling nodes. -/
def iterateList (lineOf : Nat → Nat) (checker : TsNode → Option (List Char)) :
    List TsNode → List (Nat × Assertion) → TraverseOut
  | [], m => ⟨m, [], [], []⟩
  | n :: ns, m =>
    let r1 := iterate lineOf checker n m
    let r2 := iterateList lineOf checker ns r1.assertions
    ⟨r2.assertions, r1.visited ++ r2.visited, r1.compared ++ r2.compared, r1.unmet ++ r2.unmet⟩
termination_by l _ => sizeOf l
decreasing_by
  · simp
    omega
  · simp
end

/-! ## Characterization of the instrumented traversal (claims C7, C10) -/

theorem one_le_sizeOf_tslist (l : List TsNode) : 1 ≤ sizeOf l := by
  cases l with
  | nil => simp
  | cons a l => simp; omega

theorem iterateList_nil (lineOf : Nat → Nat) (checker : TsNode → Option (List Char))
    (m : List (Nat × Assertion)) :
    iterateList lineOf checker [] m = ⟨m, [], [], []⟩ := by
  rw [iterateList]

theorem iterateList_cons (lineOf : Nat → Nat) (checker : TsNode → Option (List Char))
    (n : TsNode) (ns : List TsNode) (m : List (Nat × Assertion)) :
    iterateList lineOf checker (n :: ns) m =
      ⟨(iterateList lineOf checker ns (iterate lineOf checker n m).assertions).assertions,
       (iterate lineOf checker n m).visited
         ++ (iterateList lineOf checker ns (iterate lineOf checker n m).assertions).visited,
       (iterate lineOf checker n m).compared
         ++ (iterateList lineOf checker ns (iterate lineOf checker n m).assertions).compared,
       (iterate lineOf checker n m).unmet
         ++ (iterateList lineOf checker ns (iterate lineOf checker n m).assertions).unmet⟩ := by
  rw [iterateList]

theorem iterate_bound (lineOf : Nat → Nat) (checker : TsNode → Option (List Char))
    (node : TsNode) (m : List (Nat × Assertion)) (a : Assertion)
    (h : mapGet m (lineOf node.startPos) = some a) :
    iterate lineOf checker node m =
      ⟨(iterateList lineOf checker (iterTarget node).children
          (mapDelete m (lineOf node.startPos)).2).assertions,
       node :: (iterateList lineOf checker (iterTarget node).children
          (mapDelete m (lineOf node.startPos)).2).visited,
       (lineOf node.startPos, a, node,
          (checker (getNodeForExpectType (iterTarget node))).getD []) ::
         (iterateList lineOf checker (iterTarget node).children
          (mapDelete m (lineOf node.startPos)).2).compared,
       (if typeAssertionUnmet (expectedOf a)
            ((checker (getNodeForExpectType (iterTarget node))).getD [])
        then [(a, iterTarget node,
            (checker (getNodeForExpectType (iterTarget node))).getD [])] else []) ++
         (iterateList lineOf checker (iterTarget node).children
          (mapDelete m (lineOf node.startPos)).2).unmet⟩ := by
  rw [iterate, h]

theorem iterate_unbound (lineOf : Nat → Nat) (checker : TsNode → Option (List Char))
    (node : TsNode) (m : List (Nat × Assertion))
    (h : mapGet m (lineOf node.startPos) = none) :
    iterate lineOf checker node m =
      ⟨(iterateList lineOf checker node.children m).assertions,
       node :: (iterateList lineOf checker node.children m).visited,
       (iterateList lineOf checker node.children m).compared,
       (iterateList lineOf checker node.children m).unmet⟩ := by
  rw [iterate, h]

theorem iterateList_assertions_nodup (lineOf : Nat → Nat)
    (checker : TsNode → Option (List Char)) :
    ∀ (N : Nat) (l : List TsNode) (m : List (Nat × Assertion)), sizeOf l ≤ N →
      keysNodup m → keysNodup (iterateList lineOf checker l m).assertions := by
  intro N
  induction N with
  | zero =>
    intro l m hsz
    exact absurd hsz (by have := one_le_sizeOf_tslist l; omega)
  | succ N ih =>
    intro l m hsz hnd
    cases l with
    | nil => rw [iterateList_nil]; exact hnd
    | cons n ns =>
      have hszc : 1 + sizeOf n + sizeOf ns ≤ N + 1 := by simpa using hsz
      rw [iterateList_cons]
      dsimp only
      have h1 : keysNodup (iterate lineOf checker n m).assertions := by
        cases hme : mapGet m (lineOf n.startPos) with
        | some a =>
          rw [iterate_bound lineOf checker n m a hme]
          dsimp only
          exact ih (iterTarget n).children _
            (by have := sizeOf_iterTarget_children_lt n; omega)
            (keysNodup_delete m _ hnd)
        | none =>
          rw [iterate_unbound lineOf checker n m hme]
          dsimp only
          exact ih n.children m (by have := sizeOf_children_lt n; omega) hnd
      exact ih ns _ (by omega) h1

theorem iterate_assertions_nodup (lineOf : Nat → Nat) (checker : TsNode → Option (List Char))
    (node : TsNode) (m : List (Nat × Assertion)) (hnd : keysNodup m) :
    keysNodup (iterate lineOf checker node m).assertions := by
  cases hme : mapGet m (lineOf node.startPos) with
  | some a =>
    rw [iterate_bound lineOf checker node m a hme]
    exact iterateList_assertions_nodup lineOf checker (sizeOf (iterTarget node).children) _ _
      le_rfl (keysNodup_delete m _ hnd)
  | none =>
    rw [iterate_unbound lineOf checker node m hme]
    exact iterateList_assertions_nodup lineOf checker (sizeOf node.children) _ _ le_rfl hnd

theorem iterateList_mapGet (lineOf : Nat → Nat) (checker : TsNode → Option (List Char)) :
    ∀ (N : Nat) (l : List TsNode) (m : List (Nat × Assertion)), sizeOf l ≤ N →
      keysNodup m → ∀ q : Nat,
      mapGet (iterateList lineOf checker l m).assertions q
        = if (iterateList lineOf checker l m).visited.any (fun n => lineOf n.startPos == q)
          then none else mapGet m q := by
  intro N
  induction N with
  | zero =>
    intro l m hsz
    exact absurd hsz (by have := one_le_sizeOf_tslist l; omega)
  | succ N ih =>
    intro l m hsz hnd q
    cases l with
    | nil => rw [iterateList_nil]; simp
    | cons n ns =>
      have hszc : 1 + sizeOf n + sizeOf ns ≤ N + 1 := by simpa using hsz
      rw [iterateList_cons]
      dsimp only
      have hnd1 : keysNodup (iterate lineOf checker n m).assertions :=
        iterate_assertions_nodup lineOf checker n m hnd
      rw [ih ns (iterate lineOf checker n m).assertions (by omega) hnd1 q]
      rw [List.any_append]
      have hone : mapGet (iterate lineOf checker n m).assertions q
          = if (iterate lineOf checker n m).visited.any (fun x => lineOf x.startPos == q)
            then none else mapGet m q := by
        cases hme : mapGet m (lineOf n.startPos) with
        | some a =>
          rw [iterate_bound lineOf checker n m a hme]
          dsimp only
          rw [ih (iterTarget n).children (mapDelete m (lineOf n.startPos)).2
            (by have := sizeOf_iterTarget_children_lt n; omega) (keysNodup_delete m _ hnd) q]
          rw [List.any_cons]
          by_cases hq : lineOf n.startPos = q
          · simp only [hq, beq_self_eq_true, Bool.true_or]
            rw [if_pos trivial]
            split
            · rfl
            · exact mapDelete_get_self m q hnd
          · have hb : (lineOf n.startPos == q) = false := by
              rw [beq_eq_false_iff_ne]; exact hq
            rw [hb, Bool.false_or, mapDelete_get_other m (lineOf n.startPos) q
              (fun h => hq h.symm)]
        | none =>
          rw [iterate_unbound lineOf checker n m hme]
          dsimp only
          rw [ih n.children m (by have := sizeOf_children_lt n; omega) hnd q]
          rw [List.any_cons]
          by_cases hq : lineOf n.startPos = q
          · simp only [hq, beq_self_eq_true, Bool.true_or]
            rw [if_pos trivial]
            split
            · rfl
            · rw [← hq]; exact hme
          · have hb : (lineOf n.startPos == q) = false := by
              rw [beq_eq_false_iff_ne]; exact hq
            rw [hb, Bool.false_or]
      rw [hone]
      cases h1 : (iterate lineOf checker n m).visited.any (fun x => lineOf x.startPos == q) <;>
        cases h2 : (iterateList lineOf checker ns
            (iterate lineOf checker n m).assertions).visited.any
            (fun x => lineOf x.startPos == q) <;>
        simp

theorem any_of_find_some {α : Type} (p : α → Bool) (l : List α) (x : α)
    (h : l.find? p = some x) : l.any p = true :=
  List.any_eq_true.mpr ⟨x, List.mem_of_find?_eq_some h, List.find?_some h⟩

theorem any_of_find_none {α : Type} (p : α → Bool) (l : List α)
    (h : l.find? p = none) : l.any p = false := by
  rw [List.find?_eq_none] at h
  simp only [List.any_eq_false]
  intro x hx
  simpa using h x hx

theorem iterate_mapGet (lineOf : Nat → Nat) (checker : TsNode → Option (List Char))
    (node : TsNode) (m : List (Nat × Assertion)) (hnd : keysNodup m) (q : Nat) :
    mapGet (iterate lineOf checker node m).assertions q
      = if (iterate lineOf checker node m).visited.any (fun x => lineOf x.startPos == q)
        then none else mapGet m q := by
  cases hme : mapGet m (lineOf node.startPos) with
  | some a =>
    rw [iterate_bound lineOf checker node m a hme]
    dsimp only
    rw [iterateList_mapGet lineOf checker (sizeOf (iterTarget node).children) _ _ le_rfl
      (keysNodup_delete m _ hnd) q]
    rw [List.any_cons]
    by_cases hq : lineOf node.startPos = q
    · simp only [hq, beq_self_eq_true, Bool.true_or]
      rw [if_pos trivial]
      split
      · rfl
      · exact mapDelete_get_self m q hnd
    · have hb : (lineOf node.startPos == q) = false := by
        rw [beq_eq_false_iff_ne]; exact hq
      rw [hb, Bool.false_or, mapDelete_get_other m (lineOf node.startPos) q
        (fun h => hq h.symm)]
  | none =>
    rw [iterate_unbound lineOf checker node m hme]
    dsimp only
    rw [iterateList_mapGet lineOf checker (sizeOf node.children) _ _ le_rfl hnd q]
    rw [List.any_cons]
    by_cases hq : lineOf node.startPos = q
    · simp only [hq, beq_self_eq_true, Bool.true_or]
      rw [if_pos trivial]
      split
      · rfl
      · rw [← hq]; exact hme
    · have hb : (lineOf node.startPos == q) = false := by
        rw [beq_eq_false_iff_ne]; exact hq
      rw [hb, Bool.false_or]

/-- The comparison record the traversal produces for line `q`: one entry,
pairing the line's pending assertion with the first visited node whose
start line is `q`, when both exist; nothing otherwise. -/
def comparedTarget (checker : TsNode → Option (List Char)) (q : Nat) :
    Option Assertion → Option TsNode → List (Nat × Assertion × TsNode × List Char)
  | some a, some n => [(q, a, n, actualOfNode checker n)]
  | _, _ => []

theorem comparedTarget_none_left (checker : TsNode → Option (List Char)) (q : Nat)
    (o : Option TsNode) : comparedTarget checker q none o = [] := by
  cases o <;> rfl

theorem comparedTarget_none_right (checker : TsNode → Option (List Char)) (q : Nat)
    (o : Option Assertion) : comparedTarget checker q o none = [] := by
  cases o <;> rfl

theorem find_cons_pos {α : Type} (p : α → Bool) (a : α) (l : List α) (h : p a = true) :
    (a :: l).find? p = some a := by
  rw [List.find?_cons, h]

theorem find_cons_neg {α : Type} (p : α → Bool) (a : α) (l : List α) (h : p a = false) :
    (a :: l).find? p = l.find? p := by
  rw [List.find?_cons, h]

theorem filter_cons_pos {α : Type} (p : α → Bool) (a : α) (l : List α) (h : p a = true) :
    (a :: l).filter p = a :: l.filter p :=
  List.filter_cons_of_pos h

theorem filter_cons_neg {α : Type} (p : α → Bool) (a : α) (l : List α) (h : p a = false) :
    (a :: l).filter p = l.filter p :=
  List.filter_cons_of_neg (by simp [h])

theorem iterateList_compared (lineOf : Nat → Nat) (checker : TsNode → Option (List Char)) :
    ∀ (N : Nat) (l : List TsNode) (m : List (Nat × Assertion)), sizeOf l ≤ N →
      keysNodup m → ∀ q : Nat,
      (iterateList lineOf checker l m).compared.filter (fun c => c.1 == q)
        = comparedTarget checker q (mapGet m q)
            ((iterateList lineOf checker l m).visited.find? (fun n => lineOf n.startPos == q)) := by
  intro N
  induction N with
  | zero =>
    intro l m hsz
    exact absurd hsz (by have := one_le_sizeOf_tslist l; omega)
  | succ N ih =>
    intro l m hsz hnd q
    cases l with
    | nil =>
      rw [iterateList_nil]
      dsimp only
      rw [List.find?_nil, comparedTarget_none_right, List.filter_nil]
    | cons n ns =>
      have hszc : 1 + sizeOf n + sizeOf ns ≤ N + 1 := by simpa using hsz
      rw [iterateList_cons]
      dsimp only
      have hnd1 : keysNodup (iterate lineOf checker n m).assertions :=
        iterate_assertions_nodup lineOf checker n m hnd
      rw [List.filter_append, List.find?_append]
      rw [ih ns (iterate lineOf checker n m).assertions (by omega) hnd1 q]
      have hone : (iterate lineOf checker n m).compared.filter (fun c => c.1 == q)
          = comparedTarget checker q (mapGet m q)
              ((iterate lineOf checker n m).visited.find? (fun x => lineOf x.startPos == q)) := by
        cases hme : mapGet m (lineOf n.startPos) with
        | some a =>
          rw [iterate_bound lineOf checker n m a hme]
          dsimp only
          by_cases hq : lineOf n.startPos = q
          · subst hq
            have hbq : (lineOf n.startPos == lineOf n.startPos) = true := beq_self_eq_true _
            rw [filter_cons_pos (fun c => c.1 == lineOf n.startPos)
              (lineOf n.startPos, a, n,
                (checker (getNodeForExpectType (iterTarget n))).getD []) _ hbq]
            rw [find_cons_pos (fun x => lineOf x.startPos == lineOf n.startPos) n _ hbq]
            rw [ih (iterTarget n).children (mapDelete m (lineOf n.startPos)).2
              (by have := sizeOf_iterTarget_children_lt n; omega)
              (keysNodup_delete m _ hnd) (lineOf n.startPos)]
            rw [mapDelete_get_self m _ hnd, comparedTarget_none_left, hme]
            rfl
          · have hbq : (lineOf n.startPos == q) = false := by
              rw [beq_eq_false_iff_ne]; exact hq
            rw [filter_cons_neg (fun c => c.1 == q)
              (lineOf n.startPos, a, n,
                (checker (getNodeForExpectType (iterTarget n))).getD []) _ hbq]
            rw [find_cons_neg (fun x => lineOf x.startPos == q) n _ hbq]
            rw [ih (iterTarget n).children (mapDelete m (lineOf n.startPos)).2
              (by have := sizeOf_iterTarget_children_lt n; omega)
              (keysNodup_delete m _ hnd) q]
            rw [mapDelete_get_other m (lineOf n.startPos) q (fun h => hq h.symm)]
        | none =>
          rw [iterate_unbound lineOf checker n m hme]
          dsimp only
          rw [ih n.children m (by have := sizeOf_children_lt n; omega) hnd q]
          by_cases hq : lineOf n.startPos = q
          · subst hq
            have hbq : (lineOf n.startPos == lineOf n.startPos) = true := beq_self_eq_true _
            rw [find_cons_pos (fun x => lineOf x.startPos == lineOf n.startPos) n _ hbq]
            rw [hme, comparedTarget_none_left, comparedTarget_none_left]
          · have hbq : (lineOf n.startPos == q) = false := by
              rw [beq_eq_false_iff_ne]; exact hq
            rw [find_cons_neg (fun x => lineOf x.startPos == q) n _ hbq]
      rw [hone, iterate_mapGet lineOf checker n m hnd q]
      cases hf1 : (iterate lineOf checker n m).visited.find? (fun x => lineOf x.startPos == q) with
      | some n1 =>
        rw [any_of_find_some _ _ _ hf1]
        rw [if_pos rfl, comparedTarget_none_left, List.append_nil]
        rfl
      | none =>
        rw [any_of_find_none _ _ hf1]
        rw [if_neg Bool.false_ne_true, comparedTarget_none_right, List.nil_append,
          Option.none_or]

/-- The unmet-expectation record produced from one comparison record: kept
(with the node rewritten to the traversal's reassigned node) exactly when
the line-546 condition fails the comparison. -/
def unmetOfCompared (c : Nat × Assertion × TsNode × List Char) :
    Option (Assertion × TsNode × List Char) :=
  if typeAssertionUnmet (expectedOf c.2.1) c.2.2.2 then some (c.2.1, iterTarget c.2.2.1, c.2.2.2)
  else none

theorem filterMap_cons_toList {α β : Type} (f : α → Option β) (e : α) (l : List α) :
    (e :: l).filterMap f = (f e).toList ++ l.filterMap f := by
  cases h : f e <;> simp [List.filterMap_cons, h]

theorem unmetOfCompared_entry (a : Assertion) (nd : TsNode) (q : Nat) (act : List Char) :
    (if typeAssertionUnmet (expectedOf a) act then [(a, iterTarget nd, act)] else [])
      = (unmetOfCompared (q, a, nd, act)).toList := by
  unfold unmetOfCompared
  cases typeAssertionUnmet (expectedOf a) act <;> simp

theorem iterateList_unmet (lineOf : Nat → Nat) (checker : TsNode → Option (List Char)) :
    ∀ (N : Nat) (l : List TsNode) (m : List (Nat × Assertion)), sizeOf l ≤ N →
      (iterateList lineOf checker l m).unmet
        = (iterateList lineOf checker l m).compared.filterMap unmetOfCompared := by
  intro N
  induction N with
  | zero =>
    intro l m hsz
    exact absurd hsz (by have := one_le_sizeOf_tslist l; omega)
  | succ N ih =>
    intro l m hsz
    cases l with
    | nil =>
      rw [iterateList_nil]
      dsimp only
      rw [List.filterMap_nil]
    | cons n ns =>
      have hszc : 1 + sizeOf n + sizeOf ns ≤ N + 1 := by simpa using hsz
      rw [iterateList_cons]
      dsimp only
      rw [List.filterMap_append]
      rw [ih ns (iterate lineOf checker n m).assertions (by omega)]
      have hone : (iterate lineOf checker n m).unmet
          = (iterate lineOf checker n m).compared.filterMap unmetOfCompared := by
        cases hme : mapGet m (lineOf n.startPos) with
        | some a =>
          rw [iterate_bound lineOf checker n m a hme]
          dsimp only
          rw [filterMap_cons_toList]
          rw [ih (iterTarget n).children (mapDelete m (lineOf n.startPos)).2
            (by have := sizeOf_iterTarget_children_lt n; omega)]
          rw [unmetOfCompared_entry a n (lineOf n.startPos)
            ((checker (getNodeForExpectType (iterTarget n))).getD [])]
        | none =>
          rw [iterate_unbound lineOf checker n m hme]
          dsimp only
          rw [ih n.children m (by have := sizeOf_children_lt n; omega)]
      rw [hone]

/-! ## The twoslash reconciliation phase of `getExpectTypeFailures`
(expect.ts lines 556-584) and `getNodeAtPosition` (lines 586-597) -/

/-- Embeds the `ts.forEachChild` fold of `getNodeAtPosition(sourceFile,
position)` (expect.ts lines 586-597): `cand` is the mutable `candidate`;
a node whose span contains `position` overwrites it and is descended
into, any other node's subtree is skipped. -/
def getNodeAtPositionList (position : Int) :
    List TsNode → Option TsNode → Option TsNode
  | [], cand => cand
  | n :: ns, cand =>
    if (n.startPos : Int) ≤ position ∧ position ≤ (n.endPos : Int) then
      getNodeAtPositionList position ns (getNodeAtPositionList position n.children (some n))
    else
      getNodeAtPositionList position ns cand
termination_by l _ => sizeOf l
decreasing_by
  · have := sizeOf_children_lt n
    simp
    omega
  · simp
  · simp

/-- Embeds `getNodeAtPosition(sourceFile, position)`. -/
def getNodeAtPosition (roots : List TsNode) (position : Int) : Option TsNode :=
  getNodeAtPositionList position roots none

/-- The output of the twoslash loop of `getExpectTypeFailures`, with two
ghost fields recording every `getNodeAtPosition` call (by its position
argument) and every `getQuickInfoAtPosition` call (by its node-start
argument); they instrument the proof and do not affect the others. -/
structure TwoslashOut where
  failLines : List Nat
  unmet : List (Assertion × TsNode × List Char)
  nodeLookups : List Int
  infoQueries : List Nat

/-- Embeds one pass of the
`for (const assertion of twoSlashAssertions)` body (expect.ts lines
558-580). `lineOfI` embeds `getLineAndCharacterOfPosition(position).line`;
`qi` embeds `getQuickInfoAtPosition` followed by joining the display
parts (`none` when there is no quick info or no display parts). -/
def processTwoslashOne (lineOfI : Int → Nat) (qi : Nat → Option (List Char))
    (roots : List TsNode) (t : TwoSlash) : TwoslashOut :=
  if t.position = -1 then ⟨[0], [], [], []⟩
  else
    match getNodeAtPosition roots t.position with
    | none => ⟨[lineOfI t.position], [], [t.position], []⟩
    | some node =>
      match qi node.startPos with
      | none => ⟨[lineOfI t.position], [], [t.position], [node.startPos]⟩
      | some actual =>
        if matchModuloWhitespace actual t.expected then
          ⟨[], [], [t.position], [node.startPos]⟩
        else
          ⟨[], [(Assertion.twoslash t, node, actual)], [t.position], [node.startPos]⟩

/-- The whole twoslash loop, in order. (The `if
(twoSlashAssertions.length)` guard in the source only skips an empty
loop, so it does not change any output.) -/
def processTwoslashAll (lineOfI : Int → Nat) (qi : Nat → Option (List Char))
    (roots : List TsNode) : List TwoSlash → TwoslashOut
  | [] => ⟨[], [], [], []⟩
  | t :: rest =>
    let r1 := processTwoslashOne lineOfI qi roots t
    let r2 := processTwoslashAll lineOfI qi roots rest
    ⟨r1.failLines ++ r2.failLines, r1.unmet ++ r2.unmet,
     r1.nodeLookups ++ r2.nodeLookups, r1.infoQueries ++ r2.infoQueries⟩

/-- Embeds `getExpectTypeFailures(sourceFile, assertions, checker,
languageService)` (expect.ts lines 517-584): the tree traversal over the
pending map, then the twoslash loop; returns `(unmetExpectations,
unusedAssertions)` where
`unusedAssertions = [...twoSlashFailureLines, ...typeAssertions.keys()]`. -/
def getExpectTypeFailures (lineOf : Nat → Nat) (lineOfI : Int → Nat)
    (checker : TsNode → Option (List Char)) (qi : Nat → Option (List Char))
    (roots : List TsNode) (typeAssertions : List (Nat × Assertion))
    (twoSlashAssertions : List TwoSlash) :
    List (Assertion × TsNode × List Char) × List Nat :=
  let r := iterateList lineOf checker roots typeAssertions
  let tw := processTwoslashAll lineOfI qi roots twoSlashAssertions
  (r.unmet ++ tw.unmet, tw.failLines ++ r.assertions.map Prod.fst)

/-- **C7.** During the single depth-first traversal, a pending
manual/snapshot assertion at line `q` is compared against exactly one
node — the first node visited whose start line equals `q` — and its map
entry is deleted at that point, so no later same-line node rebinds it
(when no visited node starts at `q`, no comparison happens and the entry
survives); if the bound node is a variable statement with exactly one
declarator carrying an initializer, the type compared is the
initializer's; and every assertion line still pending when the traversal
ends is reported in the unused-assertion (orphan) list. -/
theorem c7_first_node_binding (lineOf : Nat → Nat) (lineOfI : Int → Nat)
    (checker : TsNode → Option (List Char)) (qi : Nat → Option (List Char))
    (roots : List TsNode) (m : List (Nat × Assertion)) (tw : List TwoSlash)
    (hnd : keysNodup m) (q : Nat) (a : Assertion) (ha : mapGet m q = some a) :
    (∀ node, (iterateList lineOf checker roots m).visited.find?
          (fun x => lineOf x.startPos == q) = some node →
        (iterateList lineOf checker roots m).compared.filter (fun c => c.1 == q)
            = [(q, a, node, actualOfNode checker node)]
          ∧ mapGet (iterateList lineOf checker roots m).assertions q = none
          ∧ ∀ s e c i, node = TsNode.mk s e NodeKind.variableStatement [some i] c →
              actualOfNode checker node = (checker i).getD [])
      ∧ ((iterateList lineOf checker roots m).visited.find?
            (fun x => lineOf x.startPos == q) = none →
          (iterateList lineOf checker roots m).compared.filter (fun c => c.1 == q) = []
            ∧ mapGet (iterateList lineOf checker roots m).assertions q = some a)
      ∧ ∀ q' a', mapGet (iterateList lineOf checker roots m).assertions q' = some a' →
          q' ∈ (getExpectTypeFailures lineOf lineOfI checker qi roots m tw).2 := by
  have hcmp := iterateList_compared lineOf checker (sizeOf roots) roots m le_rfl hnd q
  have hget := iterateList_mapGet lineOf checker (sizeOf roots) roots m le_rfl hnd q
  refine ⟨?_, ?_, ?_⟩
  · intro node hfind
    rw [hfind, ha] at hcmp
    refine ⟨hcmp, ?_, ?_⟩
    · rw [hget, any_of_find_some _ _ _ hfind, if_pos rfl]
    · intro s e c i heq
      subst heq
      rfl
  · intro hfind
    rw [hfind] at hcmp
    constructor
    · rw [hcmp, comparedTarget_none_right]
    · rw [hget, any_of_find_none _ _ hfind, if_neg Bool.false_ne_true]
      exact ha
  · intro q' a' hq'
    unfold getExpectTypeFailures
    dsimp only
    rw [List.mem_append]
    right
    rw [List.mem_map]
    unfold mapGet at hq'
    cases hfk : (iterateList lineOf checker roots m).assertions.find? (fun kv => kv.1 = q') with
    | none =>
      rw [hfk] at hq'
      simp at hq'
    | some kv =>
      refine ⟨kv, List.mem_of_find?_eq_some hfk, ?_⟩
      have hp := List.find?_some hfk
      exact of_decide_eq_true hp

/-- A sample initializer node for the C7 witness. -/
def c7init : TsNode := TsNode.mk 6 8 NodeKind.other [] []

/-- A sample one-declarator variable statement for the C7 witness. -/
def c7root : TsNode := TsNode.mk 0 9 NodeKind.variableStatement [some c7init] []

/-- A sample pending-assertion map for the C7 witness. -/
def c7map : List (Nat × Assertion) := [(0, Assertion.manual "number".toList)]

/-- A sample type checker for the C7 witness. -/
def c7chk : TsNode → Option (List Char) := fun _ => some "number".toList

theorem c7_first_node_binding_witness :
    (iterateList (fun _ => 0) c7chk [c7root] c7map).compared.filter (fun c => c.1 == 0)
        = [(0, Assertion.manual "number".toList, c7root, actualOfNode c7chk c7root)]
      ∧ mapGet (iterateList (fun _ => 0) c7chk [c7root] c7map).assertions 0 = none
      ∧ actualOfNode c7chk c7root = (c7chk c7init).getD [] := by
  have h1 : iterate (fun _ => 0) c7chk c7root c7map
      = ⟨[], [c7root], [(0, Assertion.manual "number".toList, c7root, "number".toList)], []⟩ := by
    rw [iterate_bound (fun _ => 0) c7chk c7root c7map (Assertion.manual "number".toList) rfl]
    rw [show (iterTarget c7root).children = ([] : List TsNode) from rfl]
    rw [iterateList_nil]
    rfl
  have h2 : iterateList (fun _ => 0) c7chk [c7root] c7map
      = ⟨[], [c7root], [(0, Assertion.manual "number".toList, c7root, "number".toList)], []⟩ := by
    rw [iterateList_cons, h1, iterateList_nil]
    rfl
  have hfind : (iterateList (fun _ => 0) c7chk [c7root] c7map).visited.find?
      (fun x => (fun _ : Nat => 0) x.startPos == 0) = some c7root := by
    rw [h2]
    rfl
  have thm := c7_first_node_binding (fun _ => 0) (fun _ => 7) c7chk (fun _ => none)
    [c7root] c7map [] (by unfold keysNodup; decide) 0 (Assertion.manual "number".toList) rfl
  obtain ⟨hc, hm, hv⟩ := thm.1 c7root hfind
  exact ⟨hc, hm, hv 0 9 [] c7init rfl⟩

/-- **C10.** When the first node bound to a manual/snapshot assertion's
line is an expression statement, the node whose type is resolved and the
node recorded in the unmet-expectation report are both the statement's
inner expression, not the expression statement itself (the inner
expression is never a variable statement, so `getNodeForExpectType`
leaves it unchanged); the unwrapping applies to every expression
statement. -/
theorem c10_expression_statement_unwrap (lineOf : Nat → Nat)
    (checker : TsNode → Option (List Char)) (roots : List TsNode)
    (m : List (Nat × Assertion)) (hnd : keysNodup m) (q : Nat) (a : Assertion)
    (ha : mapGet m q = some a) (node : TsNode)
    (hfind : (iterateList lineOf checker roots m).visited.find?
        (fun x => lineOf x.startPos == q) = some node)
    (hkind : node.kind = NodeKind.expressionStatement)
    (hexpr : (expressionOf node).kind ≠ NodeKind.variableStatement) :
    (iterateList lineOf checker roots m).compared.filter (fun c => c.1 == q)
        = [(q, a, node, (checker (expressionOf node)).getD [])]
      ∧ (typeAssertionUnmet (expectedOf a) ((checker (expressionOf node)).getD []) = true →
          (a, expressionOf node, (checker (expressionOf node)).getD [])
            ∈ (iterateList lineOf checker roots m).unmet) := by
  have h1 : iterTarget node = expressionOf node := by
    unfold iterTarget
    rw [hkind]
  have key : actualOfNode checker node = (checker (expressionOf node)).getD [] := by
    unfold actualOfNode
    rw [h1]
    have h2 : getNodeForExpectType (expressionOf node) = expressionOf node := by
      unfold getNodeForExpectType
      cases hk : (expressionOf node).kind with
      | variableStatement => exact absurd hk hexpr
      | expressionStatement => rfl
      | other => rfl
    rw [h2]
  have hct : comparedTarget checker q (some a) (some node)
      = [(q, a, node, actualOfNode checker node)] := rfl
  have hcmp := iterateList_compared lineOf checker (sizeOf roots) roots m le_rfl hnd q
  rw [hfind, ha] at hcmp
  constructor
  · rw [hcmp, hct, key]
  · intro hun
    have hmem : (q, a, node, actualOfNode checker node)
        ∈ (iterateList lineOf checker roots m).compared := by
      refine List.mem_of_mem_filter (
        show (q, a, node, actualOfNode checker node)
          ∈ (iterateList lineOf checker roots m).compared.filter (fun c => c.1 == q) from ?_)
      rw [hcmp.trans hct]
      exact List.mem_singleton.mpr rfl
    rw [iterateList_unmet lineOf checker (sizeOf roots) roots m le_rfl]
    rw [List.mem_filterMap]
    refine ⟨(q, a, node, actualOfNode checker node), hmem, ?_⟩
    unfold unmetOfCompared
    dsimp only
    rw [key]
    rw [if_pos hun]
    rw [h1]

/-- A sample inner expression for the C10 witness. -/
def c10expr : TsNode := TsNode.mk 0 5 NodeKind.other [] []

/-- A sample expression statement wrapping `c10expr` for the C10 witness. -/
def c10root : TsNode := TsNode.mk 0 6 NodeKind.expressionStatement [] [c10expr]

/-- A sample pending-assertion map for the C10 witness. -/
def c10map : List (Nat × Assertion) := [(0, Assertion.manual "number".toList)]

/-- A sample type checker (producing a mismatching type) for the C10
witness. -/
def c10chk : TsNode → Option (List Char) := fun _ => some "string".toList

theorem c10_expression_statement_unwrap_witness :
    (iterateList (fun _ => 0) c10chk [c10root] c10map).compared.filter (fun c => c.1 == 0)
        = [(0, Assertion.manual "number".toList, c10root, (c10chk (expressionOf c10root)).getD [])]
      ∧ (Assertion.manual "number".toList, expressionOf c10root,
          (c10chk (expressionOf c10root)).getD [])
          ∈ (iterateList (fun _ => 0) c10chk [c10root] c10map).unmet := by
  have h1 : iterate (fun _ => 0) c10chk c10root c10map
      = ⟨[], [c10root], [(0, Assertion.manual "number".toList, c10root, "string".toList)],
         [(Assertion.manual "number".toList, c10expr, "string".toList)]⟩ := by
    rw [iterate_bound (fun _ => 0) c10chk c10root c10map (Assertion.manual "number".toList) rfl]
    rw [show (iterTarget c10root).children = ([] : List TsNode) from rfl]
    rw [iterateList_nil]
    rfl
  have h2 : iterateList (fun _ => 0) c10chk [c10root] c10map
      = ⟨[], [c10root], [(0, Assertion.manual "number".toList, c10root, "string".toList)],
         [(Assertion.manual "number".toList, c10expr, "string".toList)]⟩ := by
    rw [iterateList_cons, h1, iterateList_nil]
    rfl
  have hfind : (iterateList (fun _ => 0) c10chk [c10root] c10map).visited.find?
      (fun x => (fun _ : Nat => 0) x.startPos == 0) = some c10root := by
    rw [h2]
    rfl
  obtain ⟨hA, hB⟩ := c10_expression_statement_unwrap (fun _ => 0) c10chk [c10root] c10map
    (by unfold keysNodup; decide) 0 (Assertion.manual "number".toList) rfl c10root hfind
    rfl (by decide)
  exact ⟨hA, hB (by decide)⟩

/-- **C8.** A caret assertion whose comment is attributed to line 1 (a
caret comment on the first physical line — there is no previous line to
point at) is built with the sentinel position `-1`, empty continuation
prefix, range `(-1, -1)` and no inserted space; and during
reconciliation any assertion with position `-1` is reported as an orphan
at line 0 regardless of the tree, the quick-info service or the other
content, with no node lookup and no quick-info query performed. -/
theorem c8_first_line_caret_sentinel (comment : List Char) (commentIndex : Nat)
    (text : List Char) (lineStarts : List Nat) (t : TwoSlash)
    (hparse : parseTwoslashAssertion comment commentIndex 1 text lineStarts
      = some (Sum.inr t)) :
    (t.position = -1 ∧ t.expectedRange = (-1, -1) ∧ t.expectedPrefixText = []
        ∧ t.insertSpace = false)
      ∧ ∀ (lineOfI : Int → Nat) (qi : Nat → Option (List Char)) (roots : List TsNode)
          (u : TwoSlash), u.position = -1 →
          processTwoslashOne lineOfI qi roots u = ⟨[0], [], [], []⟩ := by
  constructor
  · unfold parseTwoslashAssertion at hparse
    dsimp only at hparse
    split at hparse
    · split at hparse
      · exact absurd hparse (by simp)
      · rw [if_pos rfl] at hparse
        have ht : Sum.inr (⟨-1, _, (-1, -1), [], false⟩ : TwoSlash) = Sum.inr t :=
          Option.some.inj hparse
        rw [← Sum.inr.inj ht]
        exact ⟨rfl, rfl, rfl, rfl⟩
    · exact absurd hparse (by simp)
  · intro lineOfI qi roots u hu
    unfold processTwoslashOne
    rw [if_pos hu]

theorem c8_first_line_caret_sentinel_witness :
    parseTwoslashAssertion "   ^? number".toList 0 1 [] [0]
        = some (Sum.inr ⟨-1, "number".toList, (-1, -1), [], false⟩)
      ∧ processTwoslashOne (fun _ => 5) (fun _ => some "x".toList)
          [TsNode.mk 0 3 NodeKind.other [] []]
          ⟨-1, "number".toList, (-1, -1), [], false⟩ = ⟨[0], [], [], []⟩ :=
  ⟨by decide,
   (c8_first_line_caret_sentinel "   ^? number".toList 0 [] [0]
      ⟨-1, "number".toList, (-1, -1), [], false⟩ (by decide)).2
     (fun _ => 5) (fun _ => some "x".toList) [TsNode.mk 0 3 NodeKind.other [] []] _ rfl⟩
